import Mathlib

/-!
Verification development for the v8tsgo in-memory / sandboxed filesystem
(package internal/filesystem: memory.go, sandbox.go, utils.go).

The Go code is shallowly embedded as follows.

Go maps are modelled as Option-wrapped association lists: a nil Go map is
none, an allocated map is some list.  Reading a nil map yields nothing (as
in Go); assigning into a nil map is a runtime error in Go, which we model
by returning none from the whole operation (an operation result of none
means the Go code would have aborted with a runtime error instead of
returning).

Go pointers are modelled by values at paths: a MemoryDirNode is a tree
value, and the parent back-reference pointer stored in each node is
modelled as the path (list of child keys from the root) of the node the
pointer referred to when it was written.  This identification is exact for
trees whose parent references are consistent (each map entry's parent
field designates the directory holding the entry); the Go code itself
breaks that consistency in deepCopy/merge, and the model reproduces the
observable consequences (writes through a dangling parent path fall on the
node currently at that path, or nowhere, just as writes through a pointer
into a detached subtree are invisible in the live tree).

time.Time is modelled as a Nat supplied to each operation as an explicit
now argument; time.Time.After is strict comparison.  int64 sizes are
modelled as Int (no operation here approaches overflow).
-/

namespace V8tsgo

/-- Association-list lookup, first binding wins (a Go map has at most one). -/
def alGet {α : Type} : List (String × α) → String → Option α
  | [], _ => none
  | (k, v) :: rest, key => if k = key then some v else alGet rest key

/-- Association-list update-or-append, modelling Go map assignment on an
allocated map. -/
def alPut {α : Type} : List (String × α) → String → α → List (String × α)
  | [], key, v => [(key, v)]
  | (k, w) :: rest, key, v =>
    if k = key then (k, v) :: rest else (k, w) :: alPut rest key v

/-- Association-list removal, modelling the Go delete builtin. -/
def alDel {α : Type} : List (String × α) → String → List (String × α)
  | [], _ => []
  | (k, w) :: rest, key => if k = key then rest else (k, w) :: alDel rest key

/-- Reading a possibly-nil Go map: reading a nil map finds nothing. -/
def goGet {α : Type} (m : Option (List (String × α))) (key : String) : Option α :=
  match m with
  | none => none
  | some l => alGet l key

/-- Assigning into a possibly-nil Go map: assignment into a nil map is a
Go runtime error, modelled as none. -/
def goPut {α : Type} (m : Option (List (String × α))) (key : String) (v : α) :
    Option (Option (List (String × α))) :=
  match m with
  | none => none
  | some l => some (some (alPut l key v))

/-- Deleting from a possibly-nil Go map: delete on a nil map is a no-op. -/
def goDel {α : Type} (m : Option (List (String × α))) (key : String) :
    Option (List (String × α)) :=
  match m with
  | none => none
  | some l => some (alDel l key)

/-- Number of entries of a possibly-nil Go map. -/
def goLen {α : Type} (m : Option (List (String × α))) : Nat :=
  match m with
  | none => 0
  | some l => l.length

/-- Character-list worker of splitSlash. -/
def splitSlashGo : List Char → List String
  | [] => [""]
  | c :: cs =>
    match splitSlashGo cs with
    | [] => []
    | h :: t => if c = '/' then "" :: h :: t else String.mk (c :: h.data) :: t

/-- Split on slash, modelling strings.Split(path, "/") (the separator is
always the single slash in this code base).  Defined by structural
recursion on the character list so that concrete evaluations reduce. -/
def splitSlash (s : String) : List String :=
  splitSlashGo s.data

/-- strings.HasPrefix. -/
def strHasPre (s pre : String) : Bool :=
  pre.data.isPrefixOf s.data

/-- strings.HasSuffix. -/
def strHasSuf (s suf : String) : Bool :=
  suf.data.isSuffixOf s.data

/-- strings.ToLower, restricted to the ASCII range (the paths exercised
here are ASCII; Char.toLower lowers exactly the ASCII letters). -/
def strToLower (s : String) : String :=
  String.mk (s.data.map Char.toLower)

/-- Join a list of segments with slashes (the byte output of Go
path.Clean after its segment processing). -/
def joinSlash : List String → String
  | [] => ""
  | [x] => x
  | x :: xs => x ++ "/" ++ joinSlash xs

/-- MemoryFileNode of memory.go: name, content, modification time and the
parent back-reference (a Go pointer, modelled as the path of its referent;
none models a nil pointer). -/
structure MFile where
  name : String
  content : String
  modeTime : Nat
  parent : Option (List String)
deriving Repr, DecidableEq

/-- Size of a file node is its content length (MemoryFileNode.Size). -/
def MFile.size (f : MFile) : Int := (f.content.length : Int)

/-- MemoryDirNode of memory.go: name, parent back-reference, the children
and files maps (nil-able Go maps), the cumulative size field and the
modification time. -/
inductive MDir : Type where
  | mk (name : String) (parent : Option (List String))
      (children : Option (List (String × MDir)))
      (files : Option (List (String × MFile)))
      (size : Int) (modeTime : Nat)
deriving Repr

def MDir.name : MDir → String
  | .mk n _ _ _ _ _ => n

def MDir.parent : MDir → Option (List String)
  | .mk _ p _ _ _ _ => p

def MDir.children : MDir → Option (List (String × MDir))
  | .mk _ _ c _ _ _ => c

def MDir.files : MDir → Option (List (String × MFile))
  | .mk _ _ _ f _ _ => f

def MDir.size : MDir → Int
  | .mk _ _ _ _ s _ => s

def MDir.modeTime : MDir → Nat
  | .mk _ _ _ _ _ t => t

/-- Node lookup along a list of child keys (dereferencing a Go pointer
that was recorded as a path). -/
def nodeAt (d : MDir) : List String → Option MDir
  | [] => some d
  | k :: ks =>
    match goGet d.children k with
    | some c => nodeAt c ks
    | none => none

/-- Apply a function to the node at a path, rebuilding the spine; if the
path dangles the tree is unchanged (a Go write through a pointer into a
detached subtree does not affect the live tree). -/
def updateAt (d : MDir) (p : List String) (u : MDir → MDir) : MDir :=
  match p with
  | [] => u d
  | k :: ks =>
    match d with
    | .mk n par ch fi sz t =>
      match ch with
      | none => .mk n par ch fi sz t
      | some l =>
        .mk n par
          (some (l.map (fun kc => if kc.1 = k then (kc.1, updateAt kc.2 ks u) else kc)))
          fi sz t

/-- Helper for baseName/dirName (utils.go): split a character list at the
last slash, returning (prefix before the slash, suffix from the slash on),
or none when no slash occurs.  This mirrors strings.LastIndex(path, "/")
followed by Go slicing (the slash is ASCII, so byte and character
positions agree). -/
def lastSlashSplit : List Char → Option (List Char × List Char)
  | [] => none
  | c :: cs =>
    match lastSlashSplit cs with
    | some (pre, suf) => some (c :: pre, suf)
    | none => if c = '/' then some ([], c :: cs) else none

/-- baseName of utils.go: the substring from the last slash on (keeping
the slash), or the whole string when it has no slash. -/
def baseName (filePath : String) : String :=
  match lastSlashSplit filePath.data with
  | some (_, suf) => String.mk suf
  | none => filePath

/-- dirName of utils.go: the substring before the last slash, with the
empty result replaced by a single slash, or empty when no slash occurs. -/
def dirName (filePath : String) : String :=
  match lastSlashSplit filePath.data with
  | some (pre, _) => if pre = [] then "/" else String.mk pre
  | none => ""

/-- cleanHeadSlash of utils.go: strip every leading slash. -/
def cleanHeadSlash (path : String) : String :=
  String.mk (path.data.dropWhile (fun c => c = '/'))

/-- Trailing-slash stripping loop shared by resolve and glob in memory.go. -/
def stripTrailing (path : String) : String :=
  String.mk (path.data.reverse.dropWhile (fun c => c = '/')).reverse

/-- isFilePath of memory.go: nonempty and without a trailing slash. -/
def isFilePath (path : String) : Bool :=
  path ≠ "" && !(strHasSuf path "/")

/-- MemoryFS of memory.go.  The current field is a pointer to a directory
node, modelled as the path of its referent; NewMemoryFS points it at the
root, and no operation ever reassigns it. -/
structure MemoryFS where
  root : MDir
  current : List String
  caseSensitive : Bool
deriving Repr

/-- NewMemoryFS of memory.go: a fresh root with nil children and files
maps, current pointing at the root. -/
def NewMemoryFS (caseSensitive : Bool) (now : Nat) : MemoryFS :=
  { root := .mk "" none none none 0 now
    current := []
    caseSensitive := caseSensitive }

/-- MemoryDirNode.FullPath restricted to nodes reached from the root by a
key path: each step contributes a slash followed by the node's name field
(the root contributes a slash and its empty name).  This matches the Go
parent-pointer walk for parent-consistent trees; a dangling step stops the
walk early (unreachable through the operations below, where the argument
is always the current pointer and that pointer is never reassigned). -/
def fullPathAt (d : MDir) : List String → String
  | [] => "/" ++ d.name
  | k :: ks =>
    match goGet d.children k with
    | some c => "/" ++ d.name ++ fullPathAt c ks
    | none => "/" ++ d.name

/-- Full path of the current-directory pointer (fs.current.FullPath()). -/
def currentFullPath (fs : MemoryFS) : String :=
  fullPathAt fs.root fs.current

/-- normName of memory.go: lower-case unless case-sensitive. -/
def normName (fs : MemoryFS) (name : String) : String :=
  if fs.caseSensitive then name else strToLower name

/-- resolve of memory.go: strip trailing slashes, apply the case policy,
and absolutise against the current directory's full path. -/
def resolve (fs : MemoryFS) (path : String) : String :=
  let p := normName fs (stripTrailing path)
  if strHasPre p "/" then p
  else
    let currentPath := currentFullPath fs
    if currentPath = "/" then currentPath ++ p else currentPath ++ "/" ++ p

/-- Node the current pointer refers to (fs.current dereferenced).  The
default is irrelevant: current is always the root path. -/
def curNode (fs : MemoryFS) : MDir :=
  (nodeAt fs.root fs.current).getD fs.root

/-- Walk loop of MemoryFS.locate.  Arguments: the node the walk is at, the
path of that node, the remaining parts, and the dirOfFile flag.  Result
components mirror the Go return values (dir, file): the first is the Go
dir pointer as a path (for a file hit the file's parent field, exactly as
the Go code returns file.parent), the second carries the walked directory
path, the map key under which the file was found, and the file value. -/
def locAux : MDir → List String → List String → Bool →
    Option (List String) × Option (List String × String × MFile)
  | _, npath, [], _ => (some npath, none)
  | node, npath, part :: rest, dirOfFile =>
    if part = "" then locAux node npath rest dirOfFile
    else
      match goGet node.children part with
      | some child => locAux child (npath ++ [part]) rest dirOfFile
      | none =>
        match goGet node.files part with
        | some file =>
          if rest = [] then (file.parent, some (npath, part, file))
          else (none, none)
        | none =>
          if dirOfFile && rest = [] then (some npath, none)
          else (none, none)

/-- locate of memory.go: split on slashes and walk from the current
pointer. -/
def locate (fs : MemoryFS) (path : String) (dirOfFile : Bool) :
    Option (List String) × Option (List String × String × MFile) :=
  locAux (curNode fs) fs.current (splitSlash path) dirOfFile

/-- Error values of memory.go (NewFileOrDirNotExists wraps fs.ErrNotExist,
NewNotDir and NewNotFile wrap fs.ErrInvalid). -/
inductive GoErr : Type where
  | notExist (path : String)
  | notDir (path : String)
  | notFile (path : String)
deriving Repr, DecidableEq

/-- Field-update helper: replace the children map. -/
def MDir.setChildren (d : MDir) (c : Option (List (String × MDir))) : MDir :=
  match d with | .mk n p _ f s t => .mk n p c f s t

/-- Field-update helper: replace the files map. -/
def MDir.setFiles (d : MDir) (f : Option (List (String × MFile))) : MDir :=
  match d with | .mk n p c _ s t => .mk n p c f s t

/-- Field-update helper: add to the size field. -/
def MDir.addSize (d : MDir) (x : Int) : MDir :=
  match d with | .mk n p c f s t => .mk n p c f (s + x) t

/-- Field-update helper: set the modification time. -/
def MDir.setTime (d : MDir) (t2 : Nat) : MDir :=
  match d with | .mk n p c f s _ => .mk n p c f s t2

/-- Conditional time bump used by merge (if other.modeTime.After(d.modeTime)). -/
def MDir.maxTime (d : MDir) (t2 : Nat) : MDir :=
  if t2 > d.modeTime then d.setTime t2 else d

mutual

/-- Pointer equality of directory nodes is modelled as structural equality
of the values (exact whenever the two sides can only be the same node). -/
def MDir.beq : MDir → MDir → Bool
  | .mk n p c f s t, .mk n2 p2 c2 f2 s2 t2 =>
    n = n2 && p = p2 && s = s2 && t = t2 && f = f2 &&
      (match c, c2 with
       | none, none => true
       | some l, some l2 => beqChildren l l2
       | _, _ => false)
  termination_by structural d _ => d

/-- Children-list part of MDir.beq. -/
def beqChildren : List (String × MDir) → List (String × MDir) → Bool
  | [], [] => true
  | (k, d) :: r, (k2, d2) :: r2 => k = k2 && MDir.beq d d2 && beqChildren r r2
  | _, _ => false
  termination_by structural l _ => l

end

/-- ReadFile of memory.go.  The encoding argument is accepted but never
inspected (exactly as in the Go method body). -/
def readFileGo (fs : MemoryFS) (filePath : String) (encoding : String) :
    Except GoErr String :=
  if !(isFilePath filePath) then .error (.notFile filePath)
  else
    let fp := resolve fs filePath
    match locate fs fp false with
    | (none, _) => .error (.notExist fp)
    | (some _, none) => .error (.notFile fp)
    | (some _, some (_, _, f)) => .ok f.content

/-- WriteFile of memory.go.  A result of none models the Go runtime error
raised by assigning into a nil files map. -/
def writeFileGo (fs : MemoryFS) (filePath : String) (fileText : String)
    (now : Nat) : Option (Except GoErr Unit × MemoryFS) :=
  if !(isFilePath filePath) then some (.error (.notFile filePath), fs)
  else
    let fp := resolve fs filePath
    match locate fs fp true with
    | (none, _) =>
      let dpath := dirName fp
      let dpath := if dpath = "" then currentFullPath fs else dpath
      some (.error (.notExist dpath), fs)
    | (some dp, some (wp, key, f)) =>
      -- overwrite in place: file.content, file.modeTime at the entry, and
      -- size/modeTime on file.parent (the locate dir result is file.parent)
      let sizeDiff : Int := (fileText.length : Int) - f.size
      let root1 := updateAt fs.root wp (fun n =>
        n.setFiles ((n.files).map (fun l =>
          alPut l key { f with content := fileText, modeTime := now })))
      let root2 := updateAt root1 dp (fun n => (n.addSize sizeDiff).setTime now)
      some (.ok (), { fs with root := root2 })
    | (some dp, none) =>
      let fileName := baseName fp
      if fileName = "" then some (.error (.notFile fp), fs)
      else
        match nodeAt fs.root dp with
        | none => none
        | some dnode =>
          match dnode.files with
          | none => none  -- dir.files[fileName] = file on a nil map
          | some _ =>
            let file : MFile := ⟨fileName, fileText, now, some dp⟩
            let root1 := updateAt fs.root dp (fun n =>
              (((n.setFiles ((n.files).map (fun l => alPut l fileName file))).addSize
                file.size).setTime now))
            some (.ok (), { fs with root := root1 })

/-- MemoryFileNode.Delete: remove the file from its parent through the
parent back-reference, after the identity check me == f. -/
def fileDeleteGo (fs : MemoryFS) (f : MFile) (now : Nat) : MemoryFS :=
  match f.parent with
  | none => fs
  | some pp =>
    match nodeAt fs.root pp with
    | none => fs  -- parent pointer into a detached subtree: no live effect
    | some pn =>
      match goGet pn.files f.name with
      | some me =>
        if me = f then
          { fs with root := updateAt fs.root pp (fun n =>
              ((n.setFiles (goDel n.files f.name)).addSize (-f.size)).setTime now) }
        else fs
      | none => fs

/-- MemoryDirNode.Delete for the node at path p: remove it from its parent
through the parent back-reference, after the identity check me == d. -/
def dirDeleteGo (fs : MemoryFS) (p : List String) (now : Nat) : MemoryFS :=
  match nodeAt fs.root p with
  | none => fs
  | some n =>
    match n.parent with
    | none => fs
    | some pp =>
      match nodeAt fs.root pp with
      | none => fs
      | some pn =>
        match goGet pn.children n.name with
        | some me =>
          if MDir.beq me n then
            { fs with root := updateAt fs.root pp (fun m =>
                ((m.setChildren (goDel m.children n.name)).addSize (-n.size)).setTime now) }
          else fs
        | none => fs

/-- Delete of memory.go: a located file is deleted via MemoryFileNode.Delete,
a located directory via MemoryDirNode.Delete unless it is the root, which
is cleared in place (Clean); anything else is NotFound. -/
def deleteGo (fs : MemoryFS) (path : String) (now : Nat) :
    Except GoErr Unit × MemoryFS :=
  let p := resolve fs path
  match locate fs p false with
  | (some _, some (_, _, f)) => (.ok (), fileDeleteGo fs f now)
  | (some dp, none) =>
    if dp = [] then
      let cleaned :=
        match fs.root with
        | .mk n par _ _ _ _ => MDir.mk n par none none 0 now
      (.ok (), { fs with root := cleaned })
    else (.ok (), dirDeleteGo fs dp now)
  | (none, _) => (.error (.notExist p), fs)

/-- FileExists of memory.go. -/
def fileExistsGo (fs : MemoryFS) (filePath : String) : Bool :=
  if !(isFilePath filePath) then false
  else ((locate fs (resolve fs filePath) false).2).isSome

/-- DirectoryExists of memory.go. -/
def directoryExistsGo (fs : MemoryFS) (dirPath : String) : Bool :=
  let r := locate fs (resolve fs dirPath) false
  r.1.isSome && r.2.isNone

/-- Realpath of memory.go. -/
def realpathGo (fs : MemoryFS) (path : String) : String :=
  resolve fs path

/-- GetCurrentDirectory of memory.go. -/
def getCurrentDirectoryGo (fs : MemoryFS) : String :=
  currentFullPath fs

/-- Result of the mkdir walk: a Go *MemoryDirNode, either a node reachable
from the root at a path, or a node that was created but never linked into
the tree (the mkdir insertion is guarded by the nil check of the parent's
children map, so a missing segment under a parent whose map is already
allocated produces a node that is not registered anywhere). -/
inductive DirRef : Type where
  | attached (p : List String)
  | detached (d : MDir)
deriving Repr

/-- One iteration of the mkdir loop of memory.go for a single nonempty
path segment.  In the detached case the Go walk keeps creating and
chaining unregistered nodes; only the final node is ever used by callers,
and it always carries nil children and files maps, which is what this
models (its parent pointer refers to an unregistered node and is modelled
as none; no caller reads it). -/
def mkdirStep (now : Nat) (st : DirRef × MemoryFS) (part : String) :
    DirRef × MemoryFS :=
  if part = "" then st
  else
    match st with
    | (.attached p, fs) =>
      match nodeAt fs.root p with
      | none => st  -- unreachable: attached paths always refer to a node
      | some node =>
        match goGet node.children part with
        | some _ => (.attached (p ++ [part]), fs)
        | none =>
          match node.children with
          | none =>
            let child : MDir := .mk part (some p) none none 0 now
            (.attached (p ++ [part]),
              { fs with root := updateAt fs.root p (fun n =>
                  (n.setChildren (some [(part, child)])).setTime now) })
          | some _ =>
            (.detached (.mk part (some p) none none 0 now), fs)
    | (.detached _, fs) =>
      (.detached (.mk part none none none 0 now), fs)

/-- mkdir of memory.go: resolve, then walk the segments from the root,
creating (and, only when the parent's children map was nil, registering)
missing directories. -/
def mkdirWalk (fs : MemoryFS) (dirPath : String) (now : Nat) :
    DirRef × MemoryFS :=
  let p := resolve fs dirPath
  (splitSlash p).foldl (mkdirStep now) (.attached [], fs)

/-- Mkdir of memory.go (the error result of mkdir is always nil). -/
def mkdirGo (fs : MemoryFS) (dirPath : String) (now : Nat) :
    Except GoErr Unit × MemoryFS :=
  (.ok (), (mkdirWalk fs dirPath now).2)

/-- MemoryFileNode.copy: same name, content and parent pointer, fresh
modification time. -/
def MFile.copyGo (f : MFile) (now : Nat) : MFile :=
  ⟨f.name, f.content, now, f.parent⟩

mutual

/-- MemoryDirNode.deepCopy: structurally new nodes stamped with one
modification time; the parent pointers (of the copy and of every node
inside it) are copied verbatim from the originals, so they keep referring
into the source tree. -/
def deepCopy (d : MDir) (now : Nat) : MDir :=
  match d with
  | .mk n p c f s _ =>
    .mk n p
      (match c with
       | none => none
       | some l => some (deepCopyL l now))
      (match f with
       | none => none
       | some l => some (l.map (fun kf => (kf.1, MFile.copyGo kf.2 now))))
      s now
  termination_by structural d

/-- Children-list part of deepCopy. -/
def deepCopyL (l : List (String × MDir)) (now : Nat) : List (String × MDir) :=
  match l with
  | [] => []
  | (k, c) :: rest => (k, deepCopy c now) :: deepCopyL rest now
  termination_by structural l

end

/-- Files loop of merge; the overwrite branch is MemoryFileNode.overwrite
with the parent-pointer writes falling on d (the node holding the entry,
which is what the entry's parent pointer designates in a parent-consistent
tree; the Go code guards them by a nil check on the pointer, mirrored
here). -/
def mergeFiles (d : MDir) (l : List (String × MFile)) (overwrite : Bool) :
    Option MDir :=
  match l with
  | [] => some d
  | (k, f) :: rest =>
    match goGet d.files k with
    | some existing =>
      if overwrite then
        let sizeDiff := f.size - existing.size
        let after := f.modeTime > existing.modeTime
        let e2 : MFile :=
          if after then { existing with content := f.content, modeTime := f.modeTime }
          else { existing with content := f.content }
        let d1 := d.setFiles ((d.files).map (fun fl => alPut fl k e2))
        let d2 := if existing.parent.isSome && after then d1.setTime f.modeTime else d1
        let d3 := if existing.parent.isSome then d2.addSize sizeDiff else d2
        mergeFiles d3 rest overwrite
      else mergeFiles d rest overwrite
    | none =>
      match goPut d.files k f with
      | none => none
      | some ff =>
        let d1 := ((d.setFiles ff).addSize f.size).maxTime f.modeTime
        mergeFiles d1 rest overwrite

mutual

/-- MemoryDirNode.merge of memory.go: if the names differ nothing happens;
otherwise the source children are merged recursively (an existing child is
merged in place with no size adjustment on d — exactly as in the Go code —
and a missing child is registered, growing size and possibly modeTime),
then the source files (an existing file is overwritten when the overwrite
flag is set, a missing file is registered).  A nil source map means zero
loop iterations; registering into a nil destination map is a Go runtime
error, modelled as none. -/
def mergeGo (d : MDir) (src : MDir) (overwrite : Bool) : Option MDir :=
  match src with
  | .mk sn _ none sf _ _ =>
    if d.name ≠ sn then some d
    else mergeFiles d (sf.getD []) overwrite
  | .mk sn _ (some l) sf _ _ =>
    if d.name ≠ sn then some d
    else
      match mergeChildren d l overwrite with
      | none => none
      | some d1 => mergeFiles d1 (sf.getD []) overwrite
  termination_by structural src

/-- Children loop of merge. -/
def mergeChildren (d : MDir) (l : List (String × MDir)) (overwrite : Bool) :
    Option MDir :=
  match l with
  | [] => some d
  | (k, c) :: rest =>
    match goGet d.children k with
    | some child =>
      match mergeGo child c overwrite with
      | none => none
      | some merged =>
        let d1 := d.setChildren ((d.children).map (fun cl => alPut cl k merged))
        mergeChildren d1 rest overwrite
    | none =>
      match goPut d.children k c with
      | none => none
      | some ch =>
        let d1 := ((d.setChildren ch).addSize c.size).maxTime c.modeTime
        mergeChildren d1 rest overwrite
  termination_by structural l

end

/-- Destination-directory resolution step of copy: the locate result if
the destination directory exists, else the mkdir result (which registers
missing segments only where the parent's children map was nil). -/
def destRef (fs : MemoryFS) (dp : String) (now : Nat)
    (dl : Option (List String)) : DirRef × MemoryFS :=
  match dl with
  | none => mkdirWalk fs dp now
  | some q => (.attached q, fs)

/-- copy of memory.go (shared by Copy and Move through the remove flag).
A result of none models a Go runtime error (assignment into a nil map, in
WriteFile-style file registration or inside merge).  For a directory
source the model computes the merge from the value snapshots of the two
nodes, which coincides with the in-place Go mutation whenever the resolved
source and destination subtrees do not overlap. -/
def copyGo (fs : MemoryFS) (srcPath destPath : String) (remove : Bool)
    (now : Nat) : Option (Except GoErr Unit × MemoryFS) :=
  let isSrcDir := strHasSuf srcPath "/"
  let isDestDir := strHasSuf destPath "/"
  let sp := resolve fs srcPath
  let dp := resolve fs destPath
  match locate fs sp false with
  | (none, _) => some (.error (.notExist sp), fs)
  | (some sdir, srcFile?) =>
    match srcFile? with
    | some (_, _, sf) =>
      if isSrcDir then some (.error (.notExist sp), fs)
      else
        let dloc := locate fs dp false
        if dloc.2.isSome && isDestDir then some (.error (.notDir dp), fs)
        else
          let refAndFs := destRef fs dp now dloc.1
          let dref := refAndFs.1
          let fs1 := refAndFs.2
          match dloc.2 with
          | none =>
            -- create the destination file (named after the source file)
            match dref with
            | .attached q =>
              match nodeAt fs1.root q with
              | none => none
              | some dnode =>
                match dnode.files with
                | none => none  -- destDir.files[name] = destFile on a nil map
                | some _ =>
                  let nf : MFile := ⟨sf.name, sf.content, now, some q⟩
                  let fs2 := { fs1 with root := updateAt fs1.root q (fun n =>
                    (((n.setFiles ((n.files).map (fun l => alPut l nf.name nf))).addSize
                      nf.size).setTime now)) }
                  if remove then some (.ok (), fileDeleteGo fs2 sf now)
                  else some (.ok (), fs2)
            | .detached _ => none  -- a detached mkdir node has a nil files map
          | some (dwp, dkey, dfile) =>
            -- overwrite the destination file in place
            let sizeDiff := sf.size - dfile.size
            let fs2 := { fs1 with root := updateAt fs1.root dwp (fun n =>
              n.setFiles ((n.files).map (fun l =>
                alPut l dkey { dfile with content := sf.content, modeTime := now }))) }
            let fs3 :=
              match dref with
              | .attached q =>
                { fs2 with root := updateAt fs2.root q (fun n =>
                    (n.addSize sizeDiff).setTime now) }
              | .detached _ => fs2  -- write through a dangling pointer
            if remove then some (.ok (), fileDeleteGo fs3 sf now)
            else some (.ok (), fs3)
    | none =>
      -- directory source
      let dloc := locate fs dp false
      if dloc.2.isSome then some (.error (.notDir dp), fs)
      else
        let refAndFs := destRef fs dp now dloc.1
        let dref := refAndFs.1
        let fs1 := refAndFs.2
        match nodeAt fs1.root sdir with
        | none => none  -- unreachable: the walked source directory exists
        | some srcNode =>
          let srcArg := if remove then srcNode else deepCopy srcNode now
          match dref with
          | .attached q =>
            match nodeAt fs1.root q with
            | none => none
            | some dnode =>
              match mergeGo dnode srcArg true with
              | none => none
              | some merged =>
                let fs2 := { fs1 with root := updateAt fs1.root q (fun _ => merged) }
                if remove then some (.ok (), dirDeleteGo fs2 sdir now)
                else some (.ok (), fs2)
          | .detached dnode =>
            match mergeGo dnode srcArg true with
            | none => none
            | some _ =>  -- merged into a node with no live path: invisible
              if remove then some (.ok (), dirDeleteGo fs1 sdir now)
              else some (.ok (), fs1)

/-- Move of memory.go: delegates to copy with remove-source set to true;
its own remove argument is ignored (exactly as in the Go method). -/
def MoveGo (fs : MemoryFS) (srcPath destPath : String) (remove : Bool)
    (now : Nat) : Option (Except GoErr Unit × MemoryFS) :=
  copyGo fs srcPath destPath true now

/-- Copy of memory.go: delegates to copy with remove-source set to false;
its own remove argument is ignored (exactly as in the Go method). -/
def CopyGo (fs : MemoryFS) (srcPath destPath : String) (remove : Bool)
    (now : Nat) : Option (Except GoErr Unit × MemoryFS) :=
  copyGo fs srcPath destPath false now

/-- Segment loop of Go path.Clean: empty and dot segments are dropped, a
dot-dot segment pops a previous real segment, is dropped at the root of a
rooted path, and is kept (stacked) at the head of a relative path. -/
def cleanSegs (rooted : Bool) : List String → List String → List String
  | out, [] => out
  | out, seg :: rest =>
    if seg = "" || seg = "." then cleanSegs rooted out rest
    else if seg = ".." then
      match out with
      | [] => if rooted then cleanSegs rooted [] rest
              else cleanSegs rooted [".."] rest
      | top :: lower =>
        if top = ".." then cleanSegs rooted (".." :: top :: lower) rest
        else cleanSegs rooted lower rest
    else cleanSegs rooted (seg :: out) rest

/-- Go path.Clean as a segment transform (the lazybuf byte algorithm of
the Go standard library produces exactly this segment result). -/
def pathClean (p : String) : String :=
  if p = "" then "."
  else
    let rooted := strHasPre p "/"
    let segs := (cleanSegs rooted [] (splitSlash p)).reverse
    let out := (if rooted then "/" else "") ++ joinSlash segs
    if out = "" then "." else out

/-- Go path.Join on two elements: empty elements are dropped, the rest are
joined with a slash and cleaned; all-empty input gives the empty string
without cleaning. -/
def pathJoin (a b : String) : String :=
  if a = "" && b = "" then ""
  else if a = "" then pathClean b
  else if b = "" then pathClean a
  else pathClean (a ++ "/" ++ b)

/-- SandboxFS of sandbox.go: the host root of the sandbox and the current
absolute slash path inside the sandbox. -/
structure SandboxFS where
  root : String
  current : String
deriving Repr, DecidableEq

/-- resolveOsPath of sandbox.go (filepath.ToSlash is the identity on a
slash-based host).  An absolute input is stripped of leading slashes and
joined under the root, with no containment check at all.  A relative input
is joined onto the resolved current directory and rejected exactly when
the root string has the joined path as a prefix (strings.HasPrefix(s.root,
path)).  The recursive call on s.current terminates only when s.current is
absolute (as its documentation promises); a relative s.current would
recurse forever in Go, modelled as none. -/
def resolveOsPath (s : SandboxFS) (path : String) :
    Option (Except String String) :=
  if strHasPre path "/" then
    some (.ok (pathJoin s.root (cleanHeadSlash path)))
  else
    if strHasPre s.current "/" then
      let current := pathJoin s.root (cleanHeadSlash s.current)
      let p := pathJoin current path
      if strHasPre s.root p then some (.error p) else some (.ok p)
    else none

/-- Root-relative path-segment containment, written from the words of the
specification (section 9): the resolved host path stays inside the sandbox
exactly when the root's slash segments are a leading run of the resolved
path's slash segments (so a sibling such as /data2 beside a root /data is
outside).  This is the specification-side notion against which the code's
string-prefix test is compared; it is not part of the Go code. -/
def segWithin (root p : String) : Bool :=
  let rs := (splitSlash root).filter (fun s => s ≠ "")
  let ps := (splitSlash p).filter (fun s => s ≠ "")
  rs.isPrefixOf ps

/-- Content view of a tree: names, child keys and file keys with the file
names and contents, forgetting parent pointers, sizes and times (the
structural, content-wise notion of equality used by the specification for
copy/move; map nil-ness is kept as part of the structure). -/
inductive SDir : Type where
  | mk (name : String) (children : Option (List (String × SDir)))
      (files : Option (List (String × String × String)))
deriving Repr

mutual

/-- Content projection of a directory node. -/
def strip : MDir → SDir
  | .mk n _ c f _ _ =>
    .mk n
      (match c with
       | none => none
       | some l => some (stripL l))
      (match f with
       | none => none
       | some l => some (l.map (fun kf => (kf.1, kf.2.name, kf.2.content))))
  termination_by structural d => d

/-- Children-list part of strip. -/
def stripL : List (String × MDir) → List (String × SDir)
  | [] => []
  | (k, c) :: rest => (k, strip c) :: stripL rest
  termination_by structural l => l

end

/-- Stored size field of the node at a path. -/
def sizeAt (fs : MemoryFS) (p : List String) : Option Int :=
  (nodeAt fs.root p).map MDir.size

mutual

/-- Parent/child consistency at a path: every entry of every reachable
map carries a parent back-reference designating the directory that holds
the entry. -/
def parentOkB (p : List String) : MDir → Bool
  | .mk _ _ c f _ _ =>
    (match c with
     | none => true
     | some l => parentOkL p l) &&
    (match f with
     | none => true
     | some l => l.all (fun kf => kf.2.parent = some p))
  termination_by structural d => d

/-- Children-list part of parentOkB. -/
def parentOkL (p : List String) : List (String × MDir) → Bool
  | [] => true
  | (k, c) :: rest =>
    (c.parent = some p && parentOkB (p ++ [k]) c) && parentOkL p rest
  termination_by structural l => l

end

/-- One MemoryFS operation with its arguments (the now arguments stand for
the time.Now() calls).  The reader operations return no state; they are
included so that a sequence can interleave them. -/
inductive MOp : Type where
  | wrf (p t : String) (now : Nat)
  | mkd (p : String) (now : Nat)
  | del (p : String) (now : Nat)
  | cpy (s d : String) (rm : Bool) (now : Nat)
  | mov (s d : String) (rm : Bool) (now : Nat)
  | rdf (p enc : String)
  | fex (p : String)
  | dex (p : String)
  | rlp (p : String)
  | gcd

/-- Apply one operation; none is a Go runtime panic (the process aborts,
so no further state exists). -/
def applyOp (fs : MemoryFS) : MOp → Option MemoryFS
  | .wrf p t now => (writeFileGo fs p t now).map (fun r => r.2)
  | .mkd p now => some (mkdirGo fs p now).2
  | .del p now => some (deleteGo fs p now).2
  | .cpy s d rm now => (CopyGo fs s d rm now).map (fun r => r.2)
  | .mov s d rm now => (MoveGo fs s d rm now).map (fun r => r.2)
  | .rdf _ _ => some fs
  | .fex _ => some fs
  | .dex _ => some fs
  | .rlp _ => some fs
  | .gcd => some fs

/-- Run a sequence of operations from a state. -/
def runOps (fs : MemoryFS) : List MOp → Option MemoryFS
  | [] => some fs
  | op :: rest =>
    match applyOp fs op with
    | none => none
    | some fs2 => runOps fs2 rest

/-! Concrete example states.  They are ordinary MemoryFS values (the Go
struct permits building them directly); allocated-but-empty maps are the
states a correct write path would produce, and make the write paths of
the code observable without tripping the nil-map runtime error first. -/

/-- Example: a root holding one empty directory d with allocated maps. -/
def exA : MemoryFS :=
  ⟨.mk "" none (some [("d", .mk "d" (some []) (some []) (some []) 0 0)])
    (some []) 0 0, [], true⟩

/-- Example: root/a/b with a file f.txt of content xy under b, sizes
aggregated correctly everywhere. -/
def exB : MemoryFS :=
  ⟨.mk "" none
    (some [("a", .mk "a" (some [])
      (some [("b", .mk "b" (some ["a"]) (some [])
        (some [("f.txt", ⟨"f.txt", "xy", 0, some ["a", "b"]⟩)]) 2 0)])
      (some []) 2 0)])
    (some []) 2 0, [], true⟩

/-- Example: a root with one directory d holding one file g of content
old. -/
def exC : MemoryFS :=
  ⟨.mk "" none
    (some [("d", .mk "d" (some []) (some [])
      (some [("g", ⟨"g", "old", 0, some ["d"]⟩)]) 3 0)])
    (some []) 3 0, [], true⟩

/-- Example for copy/move: /x/s holds file f (content hi), /y/s is an
empty directory with allocated maps; all back-references consistent. -/
def exD : MemoryFS :=
  ⟨.mk "" none
    (some [("x", .mk "x" (some [])
        (some [("s", .mk "s" (some ["x"]) (some [])
          (some [("f", ⟨"f", "hi", 0, some ["x", "s"]⟩)]) 2 0)])
        (some []) 2 0),
      ("y", .mk "y" (some [])
        (some [("s", .mk "s" (some ["y"]) (some []) (some []) 0 0)])
        (some []) 0 0)])
    (some []) 2 0, [], true⟩

/-- Example: the state exD after copying the file /x/s/f onto the
directory /y/s at time 10 (the copy registers the file under its source
name f inside /y/s and stamps the destination directory). -/
def exD6 : MemoryFS :=
  ⟨.mk "" none
    (some [("x", .mk "x" (some [])
        (some [("s", .mk "s" (some ["x"]) (some [])
          (some [("f", ⟨"f", "hi", 0, some ["x", "s"]⟩)]) 2 0)])
        (some []) 2 0),
      ("y", .mk "y" (some [])
        (some [("s", .mk "s" (some ["y"]) (some [])
          (some [("f", ⟨"f", "hi", 10, some ["y", "s"]⟩)]) 2 10)])
        (some []) 0 0)])
    (some []) 2 0, [], true⟩

/-- Example: a root holding one directory d (nil maps inside), as two
Mkdir calls would ideally produce one each. -/
def exR : MemoryFS :=
  ⟨.mk "" none (some [("d", .mk "d" (some []) none none 0 0)]) none 0 0,
    [], true⟩

/-- C3 (code_bug): WriteFile of a new file into the root of a fresh
MemoryFS does not return — the Go code assigns into the nil files map of
the root node, which is a runtime panic, contradicting the specified
no-panic contract.  The model returns none exactly at Go's panic. -/
theorem C3_writefile_runtime_error :
    writeFileGo (NewMemoryFS true 0) "/x" "t" 1 = none := by
  rfl

/-- C4 (code_bug): Mkdir reports success but does not create the
directory: after Mkdir of /a on a fresh filesystem, Mkdir of /b returns
ok yet DirectoryExists of /b is false (the registration of a created
segment is guarded by the parent's children map being nil, so only the
first child ever created under a node is registered). -/
theorem C4_mkdir_second_sibling_lost :
    (mkdirGo (mkdirGo (NewMemoryFS true 0) "/a" 1).2 "/b" 2).1 = .ok () ∧
    directoryExistsGo (mkdirGo (mkdirGo (NewMemoryFS true 0) "/a" 1).2 "/b" 2).2 "/b"
      = false ∧
    directoryExistsGo (mkdirGo (mkdirGo (NewMemoryFS true 0) "/a" 1).2 "/b" 2).2 "/a"
      = true := by
  exact ⟨rfl, rfl, rfl⟩

/-- C1 (counterexample): WriteFile of the new file /d/f under the
existing directory d succeeds, but the immediately following ReadFile of
/d/f fails with NotFound — the created file is stored under the name /f
(baseName keeps the slash), which the path walk can never match. -/
theorem C1_counterexample :
    (writeFileGo exA "/d/f" "hi" 5).map (fun r => r.1) = some (.ok ()) ∧
    (writeFileGo exA "/d/f" "hi" 5).map (fun r => readFileGo r.2 "/d/f" "utf-8")
      = some (.error (.notExist "/d/f")) := by
  exact ⟨rfl, rfl⟩

/-- C2 (counterexample): overwriting /a/b/f.txt with one more byte grows
the size of the immediate parent b from 2 to 3 but leaves the sizes of
the ancestors a and the root at 2, so not every ancestor directory's size
changes by the content-length delta, and afterwards a's stored size is no
longer the sum of the file sizes in its subtree. -/
theorem C2_counterexample :
    (writeFileGo exB "/a/b/f.txt" "xyz" 5).map
      (fun r => (r.1, sizeAt r.2 ["a", "b"], sizeAt r.2 ["a"], sizeAt r.2 []))
      = some (.ok (), some 3, some 2, some 2) := by
  rfl

/-- C5 (counterexample): with sandbox root /data and current directory /,
the relative path ../data2 resolves to the host path /data2 — not within
the root by path-segment containment — yet resolveOsPath returns it
without a sandbox-violation error (the code only rejects when the root
string has the resolved path as a string prefix). -/
theorem C5_counterexample :
    resolveOsPath ⟨"/data", "/"⟩ "../data2" = some (.ok "/data2") ∧
    segWithin "/data" "/data2" = false := by
  exact ⟨rfl, by decide⟩

/-- C7 (counterexample): ReadFile of the existing file /d/g succeeds and
returns the content even for the encoding latin-1, although the claim
requires an error for every encoding other than utf8/utf-8 (the memory
implementation never inspects the encoding argument). -/
theorem C7_counterexample :
    readFileGo exC "/d/g" "latin-1" = .ok "old" := by
  rfl

/-- C8 (counterexample): the example tree is parent/child consistent, a
directory Copy of /x/s onto /y/s succeeds, and the resulting tree is not:
the file entry copied into /y/s keeps its parent back-reference to the
source directory /x/s (deepCopy copies parent pointers verbatim and merge
never reparents transplanted entries). -/
theorem C8_counterexample :
    parentOkB [] exD.root = true ∧
    (copyGo exD "/x/s" "/y/s" false 10).map
      (fun r => (r.1, parentOkB [] r.2.root)) = some (.ok (), false) := by
  exact ⟨rfl, rfl⟩

/-- C6 (counterexample): when the source path resolves to the root, Copy
of / onto /q followed by Delete of / clears the whole tree, while Move of
/ onto /q leaves the tree intact (root deletion is a clear-in-place for
the Delete operation but a silent no-op for the remove step of Move), so
the two ends are not content-wise equal. -/
theorem C6_counterexample :
    (copyGo exR "/" "/q" false 5).map
      (fun r => strip (deleteGo r.2 "/" 6).2.root) = some (.mk "" none none) ∧
    (MoveGo exR "/" "/q" false 7).map (fun r => strip r.2.root)
      = some (.mk "" (some [("d", .mk "d" none none)]) none) ∧
    (SDir.mk "" none none ≠ .mk "" (some [("d", .mk "d" none none)]) none) := by
  refine ⟨rfl, rfl, by simp⟩

/-- C9 (confirmed): Delete of a path that locates neither a file nor a
directory returns the NotFound error for the resolved path and returns the
state unchanged (full-tree snapshot equality). -/
theorem C9_delete_notfound_preserves_tree (fs : MemoryFS) (path : String)
    (now : Nat) (h : locate fs (resolve fs path) false = (none, none)) :
    deleteGo fs path now = (.error (.notExist (resolve fs path)), fs) := by
  simp only [deleteGo, h]

/-- C9 witness: deleting the missing path /nope from the example state. -/
theorem C9_witness :
    locate exC (resolve exC "/nope") false = (none, none) ∧
    deleteGo exC "/nope" 9 = (.error (.notExist "/nope"), exC) :=
  ⟨rfl, C9_delete_notfound_preserves_tree exC "/nope" 9 rfl⟩

/-- C7 (amended): MemoryFS.ReadFile never inspects its encoding argument —
the result is identical for every encoding value (the utf8/utf-8
restriction exists only in the sandboxed implementation), so in particular
no encoding value is rejected on an existing file. -/
theorem C7_readfile_ignores_encoding (fs : MemoryFS) (filePath e1 e2 : String) :
    readFileGo fs filePath e1 = readFileGo fs filePath e2 := rfl

/-- C5 (amended): sandboxed path resolution (with an absolute current
directory, as the field documents) returns a sandbox-violation error
exactly when the input path is relative and the configured root string has
the joined host path as a string prefix; an absolute input is never
rejected, whatever it resolves to. -/
theorem C5_resolveOsPath_error_iff (root current path : String)
    (hcur : strHasPre current "/" = true) :
    (∃ e, resolveOsPath ⟨root, current⟩ path = some (.error e)) ↔
      (strHasPre path "/" = false ∧
        strHasPre root
          (pathJoin (pathJoin root (cleanHeadSlash current)) path) = true) := by
  unfold resolveOsPath
  simp only [hcur]
  by_cases habs : strHasPre path "/"
  · simp [habs]
  · simp only [habs, Bool.false_eq_true, if_false, if_true, eq_self_iff_true,
      true_and]
    by_cases hpre : strHasPre root (pathJoin (pathJoin root (cleanHeadSlash current)) path)
    · simp [hpre]
    · simp [hpre]

/-- C5 witness: with root /data and current directory /, the relative
input .. joins to / which is a string prefix of the root, so resolution
reports a sandbox violation. -/
theorem C5_witness :
    strHasPre "/" "/" = true ∧
    (∃ e, resolveOsPath ⟨"/data", "/"⟩ ".." = some (.error e)) :=
  ⟨rfl, (C5_resolveOsPath_error_iff "/data" "/" ".." rfl).mpr ⟨rfl, rfl⟩⟩

/-! Preservation lemmas: no operation touches the current pointer or the
root's name field. -/

theorem mkdirStep_fields (now : Nat) (st : DirRef × MemoryFS) (part : String) :
    ((mkdirStep now st part).2).current = st.2.current ∧
    ((mkdirStep now st part).2).caseSensitive = st.2.caseSensitive := by
  rcases st with ⟨r, fs⟩
  unfold mkdirStep
  rcases r with p | d <;> simp only <;> repeat' split
  all_goals simp

theorem mkdirFold_fields (now : Nat) (parts : List String)
    (st : DirRef × MemoryFS) :
    ((parts.foldl (mkdirStep now) st).2).current = st.2.current ∧
    ((parts.foldl (mkdirStep now) st).2).caseSensitive = st.2.caseSensitive := by
  induction parts generalizing st with
  | nil => exact ⟨rfl, rfl⟩
  | cons part rest ih =>
    have h := mkdirStep_fields now st part
    have h2 := ih (mkdirStep now st part)
    simp only [List.foldl_cons]
    exact ⟨h2.1.trans h.1, h2.2.trans h.2⟩

@[simp] theorem mkdirWalk_current (fs : MemoryFS) (p : String) (now : Nat) :
    ((mkdirWalk fs p now).2).current = fs.current :=
  (mkdirFold_fields ..).1

@[simp] theorem mkdirWalk_caseS (fs : MemoryFS) (p : String) (now : Nat) :
    ((mkdirWalk fs p now).2).caseSensitive = fs.caseSensitive :=
  (mkdirFold_fields ..).2

@[simp] theorem destRef_current (fs : MemoryFS) (dp : String) (now : Nat)
    (dl : Option (List String)) :
    ((destRef fs dp now dl).2).current = fs.current := by
  cases dl <;> simp [destRef]

@[simp] theorem destRef_caseS (fs : MemoryFS) (dp : String) (now : Nat)
    (dl : Option (List String)) :
    ((destRef fs dp now dl).2).caseSensitive = fs.caseSensitive := by
  cases dl <;> simp [destRef]

@[simp] theorem fileDeleteGo_current (fs : MemoryFS) (f : MFile) (now : Nat) :
    (fileDeleteGo fs f now).current = fs.current := by
  unfold fileDeleteGo
  repeat' split
  all_goals simp

@[simp] theorem fileDeleteGo_caseS (fs : MemoryFS) (f : MFile) (now : Nat) :
    (fileDeleteGo fs f now).caseSensitive = fs.caseSensitive := by
  unfold fileDeleteGo
  repeat' split
  all_goals simp

@[simp] theorem dirDeleteGo_current (fs : MemoryFS) (p : List String) (now : Nat) :
    (dirDeleteGo fs p now).current = fs.current := by
  unfold dirDeleteGo
  repeat' split
  all_goals simp

@[simp] theorem dirDeleteGo_caseS (fs : MemoryFS) (p : List String) (now : Nat) :
    (dirDeleteGo fs p now).caseSensitive = fs.caseSensitive := by
  unfold dirDeleteGo
  repeat' split
  all_goals simp

@[simp] theorem deleteGo_current (fs : MemoryFS) (path : String) (now : Nat) :
    ((deleteGo fs path now).2).current = fs.current := by
  simp only [deleteGo]
  rcases h : locate fs (resolve fs path) false with ⟨dopt, fopt⟩
  repeat' split
  all_goals simp

@[simp] theorem deleteGo_caseS (fs : MemoryFS) (path : String) (now : Nat) :
    ((deleteGo fs path now).2).caseSensitive = fs.caseSensitive := by
  simp only [deleteGo]
  rcases h : locate fs (resolve fs path) false with ⟨dopt, fopt⟩
  repeat' split
  all_goals simp

theorem writeFileGo_fields (fs : MemoryFS) (p t : String) (now : Nat)
    (r : Except GoErr Unit) (fs2 : MemoryFS)
    (h : writeFileGo fs p t now = some (r, fs2)) :
    fs2.current = fs.current ∧ fs2.caseSensitive = fs.caseSensitive := by
  simp only [writeFileGo] at h
  repeat' split at h
  all_goals first
    | (exact Option.noConfusion h)
    | (injection h with h; injection h with h1 h2; subst h2; exact ⟨rfl, rfl⟩)

theorem copyGo_fields (fs : MemoryFS) (s d : String) (rm : Bool) (now : Nat)
    (r : Except GoErr Unit) (fs2 : MemoryFS)
    (h : copyGo fs s d rm now = some (r, fs2)) :
    fs2.current = fs.current ∧ fs2.caseSensitive = fs.caseSensitive := by
  simp only [copyGo] at h
  repeat' split at h
  all_goals first
    | (exact Option.noConfusion h)
    | (injection h with h; injection h with h1 h2; subst h2;
        exact ⟨by simp, by simp⟩)

/-! Name-field preservation: no operation renames the root. -/

@[simp] theorem setChildren_name (d : MDir) (c : Option (List (String × MDir))) :
    (d.setChildren c).name = d.name := by
  cases d; rfl

@[simp] theorem setFiles_name (d : MDir) (f : Option (List (String × MFile))) :
    (d.setFiles f).name = d.name := by
  cases d; rfl

@[simp] theorem addSize_name (d : MDir) (x : Int) :
    (d.addSize x).name = d.name := by
  cases d; rfl

@[simp] theorem setTime_name (d : MDir) (t : Nat) :
    (d.setTime t).name = d.name := by
  cases d; rfl

@[simp] theorem maxTime_name (d : MDir) (t : Nat) :
    (d.maxTime t).name = d.name := by
  unfold MDir.maxTime; split <;> simp

theorem updateAt_name (d : MDir) (p : List String) (u : MDir → MDir) :
    (updateAt d p u).name = (if p = [] then (u d).name else d.name) := by
  cases p with
  | nil => simp [updateAt]
  | cons k ks =>
    cases d with
    | mk n par ch fi sz t =>
      cases ch <;> simp [updateAt, MDir.name]

theorem mergeFiles_name (l : List (String × MFile)) (ow : Bool) (d m : MDir)
    (h : mergeFiles d l ow = some m) : m.name = d.name := by
  induction l generalizing d with
  | nil => simp [mergeFiles] at h; simp [h]
  | cons kf rest ih =>
    rcases kf with ⟨k, f⟩
    unfold mergeFiles at h
    repeat' split at h
    all_goals first
      | (exact Option.noConfusion h)
      | (refine (ih _ h).trans ?_
         repeat' split
         all_goals simp)

theorem mergeChildren_name (l : List (String × MDir)) (ow : Bool) (d m : MDir)
    (h : mergeChildren d l ow = some m) : m.name = d.name := by
  induction l generalizing d with
  | nil => simp [mergeChildren] at h; simp [h]
  | cons kc rest ih =>
    rcases kc with ⟨k, c⟩
    unfold mergeChildren at h
    repeat' split at h
    all_goals first
      | (exact Option.noConfusion h)
      | (refine (ih _ h).trans ?_
         repeat' split
         all_goals simp)

theorem mergeGo_name (d src : MDir) (ow : Bool) (m : MDir)
    (h : mergeGo d src ow = some m) : m.name = d.name := by
  cases src with
  | mk sn sp sc sf ss st =>
    rcases sc with _ | l <;> unfold mergeGo at h
    repeat' split at h
    all_goals first
      | (exact Option.noConfusion h)
      | (injection h with h; simp [← h])
      | (exact mergeFiles_name _ _ _ _ h)
      | (exact (mergeFiles_name _ _ _ _ h).trans
          (mergeChildren_name _ _ _ _ (by assumption)))

/-- Replacing the node at a path with a node of the same name preserves
the root's name. -/
theorem updateAt_name_of_eq (r : MDir) (q : List String) (dnode merged : MDir)
    (hn : nodeAt r q = some dnode) (hm : merged.name = dnode.name) :
    (updateAt r q (fun _ => merged)).name = r.name := by
  cases q with
  | nil =>
    simp only [nodeAt, Option.some.injEq] at hn
    simp [updateAt, hm, hn]
  | cons k ks => simp [updateAt_name]

/-- Writing back a merge result at the path of the node it was computed
from preserves the root's name. -/
theorem updateAt_merged_name (r : MDir) (q : List String) (dn src : MDir)
    (ow : Bool) (merged : MDir) (hn : nodeAt r q = some dn)
    (hm : mergeGo dn src ow = some merged) :
    (updateAt r q (fun _ => merged)).name = r.name :=
  updateAt_name_of_eq r q dn merged hn (mergeGo_name _ _ _ _ hm)

@[simp] theorem mkdirStep_rootName (now : Nat) (st : DirRef × MemoryFS)
    (part : String) :
    ((mkdirStep now st part).2).root.name = st.2.root.name := by
  rcases st with ⟨rref, fs⟩
  unfold mkdirStep
  rcases rref with p | dd <;> simp only <;> repeat' split
  all_goals simp [updateAt_name]

theorem mkdirFold_rootName (now : Nat) (parts : List String)
    (st : DirRef × MemoryFS) :
    ((parts.foldl (mkdirStep now) st).2).root.name = st.2.root.name := by
  induction parts generalizing st with
  | nil => rfl
  | cons part rest ih =>
    simp only [List.foldl_cons]
    rw [ih]
    simp

@[simp] theorem mkdirWalk_rootName (fs : MemoryFS) (p : String) (now : Nat) :
    ((mkdirWalk fs p now).2).root.name = fs.root.name := by
  simp only [mkdirWalk]
  exact mkdirFold_rootName ..

@[simp] theorem destRef_rootName (fs : MemoryFS) (dp : String) (now : Nat)
    (dl : Option (List String)) :
    ((destRef fs dp now dl).2).root.name = fs.root.name := by
  cases dl <;> simp [destRef]

@[simp] theorem fileDeleteGo_rootName (fs : MemoryFS) (f : MFile) (now : Nat) :
    (fileDeleteGo fs f now).root.name = fs.root.name := by
  unfold fileDeleteGo
  repeat' split
  all_goals simp [updateAt_name]

@[simp] theorem dirDeleteGo_rootName (fs : MemoryFS) (p : List String) (now : Nat) :
    (dirDeleteGo fs p now).root.name = fs.root.name := by
  unfold dirDeleteGo
  repeat' split
  all_goals simp [updateAt_name]

@[simp] theorem deleteGo_rootName (fs : MemoryFS) (path : String) (now : Nat) :
    ((deleteGo fs path now).2).root.name = fs.root.name := by
  simp only [deleteGo]
  rcases h : locate fs (resolve fs path) false with ⟨dopt, fopt⟩
  repeat' split
  all_goals try simp
  all_goals simp_all [MDir.name]

theorem writeFileGo_rootName (fs : MemoryFS) (p t : String) (now : Nat)
    (r : Except GoErr Unit) (fs2 : MemoryFS)
    (h : writeFileGo fs p t now = some (r, fs2)) :
    fs2.root.name = fs.root.name := by
  simp only [writeFileGo] at h
  repeat' split at h
  all_goals first
    | (exact Option.noConfusion h)
    | (injection h with h; injection h with h1 h2; subst h2;
        simp [updateAt_name])

theorem copyGo_rootName (fs : MemoryFS) (s d : String) (rm : Bool) (now : Nat)
    (r : Except GoErr Unit) (fs2 : MemoryFS)
    (h : copyGo fs s d rm now = some (r, fs2)) :
    fs2.root.name = fs.root.name := by
  simp only [copyGo] at h
  repeat' split at h
  all_goals first
    | (exact Option.noConfusion h)
    | (injection h with h; injection h with h1 h2; subst h2
       try simp only [dirDeleteGo_rootName, fileDeleteGo_rootName]
       all_goals
         first
           | rfl
           | (simp [updateAt_name]; done)
           | (exact Eq.trans (updateAt_merged_name _ _ _ _ _ _ (by assumption)
                (by assumption)) (by simp)))

/-- Any single operation that returns preserves the current pointer, the
case policy and the root's name. -/
theorem applyOp_invariant (fs fs2 : MemoryFS) (op : MOp)
    (h : applyOp fs op = some fs2) :
    fs2.current = fs.current ∧ fs2.caseSensitive = fs.caseSensitive ∧
      fs2.root.name = fs.root.name := by
  cases op with
  | wrf p t now =>
    simp only [applyOp, Option.map_eq_some'] at h
    obtain ⟨⟨r0, fsx⟩, hw, hx⟩ := h
    subst hx
    exact ⟨(writeFileGo_fields _ _ _ _ _ _ hw).1,
      (writeFileGo_fields _ _ _ _ _ _ hw).2,
      writeFileGo_rootName _ _ _ _ _ _ hw⟩
  | mkd p now =>
    simp only [applyOp, mkdirGo, Option.some.injEq] at h
    subst h
    exact ⟨by simp, by simp, by simp⟩
  | del p now =>
    simp only [applyOp, Option.some.injEq] at h
    subst h
    exact ⟨by simp, by simp, by simp⟩
  | cpy s d rm now =>
    simp only [applyOp, CopyGo, Option.map_eq_some'] at h
    obtain ⟨⟨r0, fsx⟩, hw, hx⟩ := h
    subst hx
    exact ⟨(copyGo_fields _ _ _ _ _ _ _ hw).1,
      (copyGo_fields _ _ _ _ _ _ _ hw).2,
      copyGo_rootName _ _ _ _ _ _ _ hw⟩
  | mov s d rm now =>
    simp only [applyOp, MoveGo, Option.map_eq_some'] at h
    obtain ⟨⟨r0, fsx⟩, hw, hx⟩ := h
    subst hx
    exact ⟨(copyGo_fields _ _ _ _ _ _ _ hw).1,
      (copyGo_fields _ _ _ _ _ _ _ hw).2,
      copyGo_rootName _ _ _ _ _ _ _ hw⟩
  | rdf p enc => simp only [applyOp, Option.some.injEq] at h; subst h
                 exact ⟨rfl, rfl, rfl⟩
  | fex p => simp only [applyOp, Option.some.injEq] at h; subst h
             exact ⟨rfl, rfl, rfl⟩
  | dex p => simp only [applyOp, Option.some.injEq] at h; subst h
             exact ⟨rfl, rfl, rfl⟩
  | rlp p => simp only [applyOp, Option.some.injEq] at h; subst h
             exact ⟨rfl, rfl, rfl⟩
  | gcd => simp only [applyOp, Option.some.injEq] at h; subst h
           exact ⟨rfl, rfl, rfl⟩

/-- Any sequence of operations that returns preserves the current pointer,
the case policy and the root's name. -/
theorem runOps_invariant (ops : List MOp) (fs fs2 : MemoryFS)
    (h : runOps fs ops = some fs2) :
    fs2.current = fs.current ∧ fs2.caseSensitive = fs.caseSensitive ∧
      fs2.root.name = fs.root.name := by
  induction ops generalizing fs with
  | nil =>
    simp only [runOps, Option.some.injEq] at h
    subst h
    exact ⟨rfl, rfl, rfl⟩
  | cons op rest ih =>
    simp only [runOps] at h
    split at h
    · exact Option.noConfusion h
    · rename_i fsm hm
      obtain ⟨h1, h2, h3⟩ := applyOp_invariant fs fsm op hm
      obtain ⟨g1, g2, g3⟩ := ih fsm h
      exact ⟨g1.trans h1, g2.trans h2, g3.trans h3⟩

/-- C10 (confirmed): the current-directory pointer set by NewMemoryFS is
never reassigned: after any sequence of operations it still designates the
root, GetCurrentDirectory returns the slash path, and every relative path
is resolved against the slash path. -/
theorem C10_current_never_reassigned (cs : Bool) (n0 : Nat) (ops : List MOp)
    (fs2 : MemoryFS) (h : runOps (NewMemoryFS cs n0) ops = some fs2) :
    fs2.current = [] ∧ getCurrentDirectoryGo fs2 = "/" ∧
    (∀ p : String, strHasPre (normName fs2 (stripTrailing p)) "/" = false →
      resolve fs2 p = "/" ++ normName fs2 (stripTrailing p)) := by
  obtain ⟨h1, _, h3⟩ := runOps_invariant ops _ _ h
  have hcur : fs2.current = [] := h1
  have hname : fs2.root.name = "" := h3
  have hfull : currentFullPath fs2 = "/" := by
    unfold currentFullPath
    rw [hcur]
    simp [fullPathAt, hname]
  refine ⟨hcur, hfull, ?_⟩
  intro p hp
  unfold resolve
  simp [hp, hfull]

/-- C10 witness: a concrete sequence (Mkdir, Delete, ReadFile) ends in a
state whose current pointer is the root and whose current directory is the
slash path. -/
theorem C10_witness :
    runOps (NewMemoryFS true 0) [.mkd "/a" 1, .del "/a" 2, .rdf "/x" "utf-8"]
      = some ⟨.mk "" none (some []) none 0 2, [], true⟩ ∧
    (⟨.mk "" none (some []) none 0 2, [], true⟩ : MemoryFS).current = [] ∧
    getCurrentDirectoryGo ⟨.mk "" none (some []) none 0 2, [], true⟩ = "/" :=
  ⟨rfl,
    (C10_current_never_reassigned true 0
      [.mkd "/a" 1, .del "/a" 2, .rdf "/x" "utf-8"]
      ⟨.mk "" none (some []) none 0 2, [], true⟩ rfl).1,
    (C10_current_never_reassigned true 0
      [.mkd "/a" 1, .del "/a" 2, .rdf "/x" "utf-8"]
      ⟨.mk "" none (some []) none 0 2, [], true⟩ rfl).2.1⟩

/-! Structure lemmas about updateAt, used by the size and round-trip
theorems. -/

theorem alGet_mapUpd (l : List (String × MDir)) (j : String) (g : MDir → MDir)
    (part : String) :
    alGet (l.map (fun kc => if kc.1 = j then (kc.1, g kc.2) else kc)) part =
      if part = j then (alGet l j).map g else alGet l part := by
  induction l with
  | nil => simp [alGet]
  | cons kc rest ih =>
    rcases kc with ⟨k, c⟩
    simp only [List.map_cons]
    by_cases hkj : k = j
    · subst hkj
      simp only [if_pos rfl]
      by_cases hpk : k = part
      · subst hpk
        simp [alGet]
      · have hpk2 : ¬ part = k := fun h => hpk h.symm
        simp [alGet, if_neg hpk, if_neg hpk2, ih]
    · simp only [if_neg hkj]
      by_cases hpk : k = part
      · subst hpk
        have hkj2 : ¬ k = j := hkj
        simp [alGet, if_neg hkj2]
      · simp [alGet, if_neg hpk, if_neg hkj, ih]

@[simp] theorem updateAt_cons_files (d : MDir) (j : String) (js : List String)
    (u : MDir → MDir) : (updateAt d (j :: js) u).files = d.files := by
  rcases d with ⟨n, p, c, f, s, t⟩
  cases c <;> rfl

@[simp] theorem updateAt_cons_size (d : MDir) (j : String) (js : List String)
    (u : MDir → MDir) : (updateAt d (j :: js) u).size = d.size := by
  rcases d with ⟨n, p, c, f, s, t⟩
  cases c <;> rfl

@[simp] theorem updateAt_cons_parent (d : MDir) (j : String) (js : List String)
    (u : MDir → MDir) : (updateAt d (j :: js) u).parent = d.parent := by
  rcases d with ⟨n, p, c, f, s, t⟩
  cases c <;> rfl

@[simp] theorem updateAt_cons_name (d : MDir) (j : String) (js : List String)
    (u : MDir → MDir) : (updateAt d (j :: js) u).name = d.name := by
  rcases d with ⟨n, p, c, f, s, t⟩
  cases c <;> rfl

@[simp] theorem updateAt_nil (d : MDir) (u : MDir → MDir) :
    updateAt d [] u = u d := rfl

theorem goGet_updateAt_cons (d : MDir) (j : String) (js : List String)
    (u : MDir → MDir) (part : String) :
    goGet (updateAt d (j :: js) u).children part =
      (if part = j then (goGet d.children j).map (fun c => updateAt c js u)
       else goGet d.children part) := by
  rcases d with ⟨n, p, c, f, s, t⟩
  cases c with
  | none => simp [updateAt, goGet, MDir.children]
  | some l =>
    simp only [updateAt, goGet, MDir.children]
    exact alGet_mapUpd l j (fun c => updateAt c js u) part

/-- Sizes after updateAt: only the target's stored size can change, and it
changes according to the update function; every other node keeps its
stored size (updates that do not touch children maps). -/
theorem size_nodeAt_updateAt (q : List String) (r : MDir) (p : List String)
    (u : MDir → MDir) (hu : ∀ n, (u n).children = n.children) :
    (nodeAt (updateAt r p u) q).map MDir.size =
      (if q = p then (nodeAt r q).map (fun n => (u n).size)
       else (nodeAt r q).map MDir.size) := by
  induction q generalizing r p with
  | nil =>
    cases p with
    | nil => simp [nodeAt, updateAt]
    | cons j js => simp [nodeAt]
  | cons k ks ih =>
    cases p with
    | nil =>
      simp only [updateAt_nil, nodeAt, hu r]
      rw [if_neg (show (k :: ks) ≠ ([] : List String) by simp)]
    | cons j js =>
      simp only [nodeAt, goGet_updateAt_cons]
      by_cases hkj : k = j
      · subst hkj
        rw [if_pos rfl]
        cases hc : goGet r.children k with
        | none => simp [hc]
        | some c =>
          simp only [hc, Option.map_some']
          rw [ih c js]
          by_cases hkp : ks = js
          · subst hkp; simp
          · rw [if_neg hkp, if_neg (by simp [hkp])]
      · rw [if_neg hkj, if_neg (by simp [hkj])]

/-- C2 (amended): a WriteFile that overwrites an existing file adjusts the
stored size of exactly one directory — the one designated by the file's
parent reference — by the content-length delta; the stored size of every
other directory (in particular of every ancestor above the parent) is
unchanged. -/
theorem C2_write_updates_only_parent_size (fs : MemoryFS) (p t : String)
    (now : Nat) (dp wp : List String) (key : String) (f : MFile)
    (hfp : isFilePath p = true)
    (hloc : locate fs (resolve fs p) true = (some dp, some (wp, key, f))) :
    ∃ fs2, writeFileGo fs p t now = some (.ok (), fs2) ∧
      sizeAt fs2 dp =
        (sizeAt fs dp).map (fun s => s + ((t.length : Int) - f.size)) ∧
      (∀ q : List String, q ≠ dp → sizeAt fs2 q = sizeAt fs q) := by
  have hu1 : ∀ n : MDir,
      (n.setFiles ((n.files).map (fun l =>
        alPut l key { f with content := t, modeTime := now }))).children
        = n.children := by
    intro n; rcases n with ⟨a, b, c, d2, e, g⟩; rfl
  have hu2 : ∀ n : MDir,
      ((n.addSize ((t.length : Int) - f.size)).setTime now).children
        = n.children := by
    intro n; rcases n with ⟨a, b, c, d2, e, g⟩; rfl
  have hu2size : ∀ n : MDir,
      ((n.addSize ((t.length : Int) - f.size)).setTime now).size
        = n.size + ((t.length : Int) - f.size) := by
    intro n; rcases n with ⟨a, b, c, d2, e, g⟩; rfl
  have hu1size : ∀ n : MDir,
      (n.setFiles ((n.files).map (fun l =>
        alPut l key { f with content := t, modeTime := now }))).size
        = n.size := by
    intro n; rcases n with ⟨a, b, c, d2, e, g⟩; rfl
  refine ⟨{ fs with root := updateAt (updateAt fs.root wp (fun n => n.setFiles ((n.files).map (fun l => alPut l key { f with content := t, modeTime := now })))) dp (fun n => (n.addSize ((t.length : Int) - f.size)).setTime now) }, ?_, ?_, ?_⟩
  · simp only [writeFileGo, hfp, Bool.not_true, Bool.false_eq_true, if_false,
      hloc]
  · show (nodeAt _ dp).map MDir.size = _
    rw [size_nodeAt_updateAt dp _ dp _ hu2, if_pos rfl]
    have h1 : ∀ q : List String,
        (nodeAt (updateAt fs.root wp (fun n => n.setFiles ((n.files).map
          (fun l => alPut l key { f with content := t, modeTime := now })))) q).map
            MDir.size
          = (nodeAt fs.root q).map MDir.size := by
      intro q
      rw [size_nodeAt_updateAt q _ wp _ hu1]
      split
      · simp only [hu1size]
      · rfl
    have h2 : ∀ o : Option MDir,
        o.map (fun n => ((n.addSize ((t.length : Int) - f.size)).setTime now).size)
          = (o.map MDir.size).map (fun s => s + ((t.length : Int) - f.size)) := by
      intro o; cases o <;> simp [hu2size]
    rw [h2, h1 dp]
    rfl
  · intro q hq
    show (nodeAt _ q).map MDir.size = _
    rw [size_nodeAt_updateAt q _ dp _ hu2, if_neg hq,
      size_nodeAt_updateAt q _ wp _ hu1]
    split
    · simp only [hu1size]; rfl
    · rfl

/-- C2 witness: overwriting /a/b/f.txt (content xy) with xyz adds one byte
to b's size and leaves every other directory size unchanged. -/
theorem C2_witness :
    isFilePath "/a/b/f.txt" = true ∧
    locate exB (resolve exB "/a/b/f.txt") true
      = (some ["a", "b"],
          some (["a", "b"], "f.txt", ⟨"f.txt", "xy", 0, some ["a", "b"]⟩)) ∧
    (∃ fs2, writeFileGo exB "/a/b/f.txt" "xyz" 5 = some (.ok (), fs2) ∧
      sizeAt fs2 ["a", "b"] = (sizeAt exB ["a", "b"]).map
        (fun s => s + ((("xyz" : String).length : Int)
          - MFile.size ⟨"f.txt", "xy", 0, some ["a", "b"]⟩)) ∧
      (∀ q : List String, q ≠ ["a", "b"] → sizeAt fs2 q = sizeAt exB q)) :=
  ⟨rfl, rfl,
    C2_write_updates_only_parent_size exB "/a/b/f.txt" "xyz" 5 ["a", "b"]
      ["a", "b"] "f.txt" ⟨"f.txt", "xy", 0, some ["a", "b"]⟩ rfl rfl⟩

/-! Walk lemmas: updates that keep the children and files maps of every
node are invisible to locate, and replacing a file entry at the walked
location is seen by locate exactly there. -/

theorem alGet_alPut_self {α : Type} (l : List (String × α)) (k : String)
    (v : α) : alGet (alPut l k v) k = some v := by
  induction l with
  | nil => simp [alGet, alPut]
  | cons kc rest ih =>
    rcases kc with ⟨k2, w⟩
    by_cases hk : k2 = k
    · subst hk; simp [alGet, alPut]
    · simp [alGet, alPut, hk, ih]

theorem locAux_updateAt_invisible (parts : List String) :
    ∀ (node : MDir) (npath q : List String) (u : MDir → MDir)
      (_ : ∀ n, (u n).children = n.children ∧ (u n).files = n.files)
      (dof : Bool),
      locAux (updateAt node q u) npath parts dof =
        locAux node npath parts dof := by
  induction parts with
  | nil => intro node npath q u hu dof; rfl
  | cons part rest ih =>
    intro node npath q u hu dof
    by_cases hp : part = ""
    · subst hp
      simp only [locAux, if_pos rfl]
      exact ih node npath q u hu dof
    · cases q with
      | nil =>
        simp only [updateAt_nil, locAux, if_neg hp, (hu node).1, (hu node).2]
      | cons j js =>
        simp only [locAux, if_neg hp, goGet_updateAt_cons, updateAt_cons_files]
        by_cases hpj : part = j
        · rw [if_pos hpj]
          cases hc : goGet node.children j with
          | none => simp [hpj, hc]
          | some c =>
            simp only [hpj, hc, Option.map_some']
            exact ih c (npath ++ [j]) js u hu dof
        · rw [if_neg hpj]

@[simp] theorem goGet_some {α : Type} (l : List (String × α)) (k : String) :
    goGet (some l) k = alGet l k := rfl

@[simp] theorem setFiles_children (d : MDir) (x : Option (List (String × MFile))) :
    (d.setFiles x).children = d.children := by
  rcases d with ⟨n, p, c, f, s, t⟩; rfl

@[simp] theorem setFiles_files (d : MDir) (x : Option (List (String × MFile))) :
    (d.setFiles x).files = x := by
  rcases d with ⟨n, p, c, f, s, t⟩; rfl

/-- A file hit of the walk lies at or below the walk's start. -/
theorem locAux_fileHit_extends (parts : List String) :
    ∀ (node : MDir) (npath : List String) (dof : Bool)
      (dret : Option (List String)) (w : List String) (k : String) (f : MFile),
      locAux node npath parts dof = (dret, some (w, k, f)) →
      ∃ suf, w = npath ++ suf := by
  induction parts with
  | nil =>
    intro node npath dof dret w k f h
    exact absurd (congrArg Prod.snd h) (by simp [locAux])
  | cons part rest ih =>
    intro node npath dof dret w k f h
    by_cases hp : part = ""
    · subst hp
      simp only [locAux, if_pos rfl] at h
      exact ih node npath dof dret w k f h
    · simp only [locAux, if_neg hp] at h
      rcases hc : goGet node.children part with _ | c
      · simp only [hc] at h
        rcases hf : goGet node.files part with _ | file
        · simp only [hf] at h
          split at h <;> exact absurd (congrArg Prod.snd h) (by simp)
        · simp only [hf] at h
          split at h
          · have h2 : some (npath, part, file) = some (w, k, f) :=
              congrArg Prod.snd h
            injection h2 with h2
            injection h2 with h2a h2b
            exact ⟨[], by rw [← h2a]; simp⟩
          · exact absurd (congrArg Prod.snd h) (by simp)
      · simp only [hc] at h
        obtain ⟨suf, hsuf⟩ := ih c (npath ++ [part]) dof dret w k f h
        exact ⟨part :: suf, by rw [hsuf]; simp⟩

/-- Replacing the file entry found by a walk: the walk of the updated tree
finds the new entry at the same place, for any dirOfFile flag, and the dir
component returned by the original walk was the file's parent field. -/
theorem locAux_overwrite (f2 : MFile) (parts : List String) :
    ∀ (node : MDir) (npath : List String) (dret : Option (List String))
      (rp : List String) (key : String) (f : MFile) (dof dof2 : Bool),
      locAux node npath parts dof = (dret, some (npath ++ rp, key, f)) →
      dret = f.parent ∧
        locAux (updateAt node rp (fun n => n.setFiles
            ((n.files).map (fun l => alPut l key f2)))) npath parts dof2 =
          (f2.parent, some (npath ++ rp, key, f2)) := by
  induction parts with
  | nil =>
    intro node npath dret rp key f dof dof2 h
    exact absurd (congrArg Prod.snd h) (by simp [locAux])
  | cons part rest ih =>
    intro node npath dret rp key f dof dof2 h
    by_cases hp : part = ""
    · subst hp
      simp only [locAux, if_pos rfl] at h ⊢
      exact ih node npath dret rp key f dof dof2 h
    · simp only [locAux, if_neg hp] at h
      rcases hc : goGet node.children part with _ | c
      · simp only [hc] at h
        rcases hf : goGet node.files part with _ | file
        · simp only [hf] at h
          split at h <;> exact absurd (congrArg Prod.snd h) (by simp)
        · simp only [hf] at h
          by_cases hr : rest = []
          · subst hr
            rw [if_pos rfl] at h
            have h1 : file.parent = dret := congrArg Prod.fst h
            have h2 : some (npath, part, file) = some (npath ++ rp, key, f) :=
              congrArg Prod.snd h
            injection h2 with h2
            injection h2 with ha hb
            injection hb with hb1 hb2
            have hrp : rp = [] := by
              have h3 : npath ++ ([] : List String) = npath ++ rp := by
                simpa using ha
              exact (List.append_cancel_left h3).symm
            subst hrp
            subst hb1
            subst hb2
            refine ⟨h1.symm, ?_⟩
            rcases hfl : node.files with _ | l
            · rw [hfl] at hf
              exact absurd hf (by simp [goGet])
            · have hgl : alGet l part = some file := by
                rw [hfl] at hf; simpa using hf
              simp [locAux, hp, hfl, hc, alGet_alPut_self]
          · rw [if_neg hr] at h
            exact absurd (congrArg Prod.snd h) (by simp)
      · simp only [hc] at h
        obtain ⟨suf, hsuf⟩ :=
          locAux_fileHit_extends rest c (npath ++ [part]) dof dret
            (npath ++ rp) key f h
        have hrp : rp = part :: suf := by
          have h3 : npath ++ rp = npath ++ (part :: suf) := by
            rw [hsuf]; simp
          exact List.append_cancel_left h3
        subst hrp
        rw [show npath ++ (part :: suf) = (npath ++ [part]) ++ suf by simp] at h
        obtain ⟨hd, hw⟩ := ih c (npath ++ [part]) dret suf key f dof dof2 h
        refine ⟨hd, ?_⟩
        simp only [locAux, if_neg hp, goGet_updateAt_cons, hc,
          Option.map_some', eq_self_iff_true, if_true]
        rw [hw]
        simp

/-- C1 (amended): when WriteFile overwrites an existing file — the
resolved path locates a file — the write succeeds and an immediate
ReadFile of the same path returns exactly the written text.  (For a fresh
file the round-trip fails; see the counterexample.) -/
theorem C1_write_overwrite_roundtrip (fs : MemoryFS) (p t : String)
    (now : Nat) (dp wp : List String) (key : String) (f : MFile)
    (hfp : isFilePath p = true)
    (hcur : fs.current = [])
    (hname : fs.root.name = "")
    (hloc : locate fs (resolve fs p) true = (some dp, some (wp, key, f))) :
    ∃ fs2, writeFileGo fs p t now = some (.ok (), fs2) ∧
      readFileGo fs2 p "utf-8" = .ok t := by
  have hu2pres : ∀ n : MDir,
      ((n.addSize ((t.length : Int) - f.size)).setTime now).children
          = n.children ∧
        ((n.addSize ((t.length : Int) - f.size)).setTime now).files
          = n.files := by
    intro n; rcases n with ⟨a, b, c, d2, e, g⟩; exact ⟨rfl, rfl⟩
  have hcn : curNode fs = fs.root := by simp [curNode, hcur, nodeAt]
  have hloc2 : locAux fs.root [] (splitSlash (resolve fs p)) true
      = (some dp, some ([] ++ wp, key, f)) := by
    simpa [locate, hcn, hcur] using hloc
  obtain ⟨hd, hw⟩ := locAux_overwrite { f with content := t, modeTime := now }
    (splitSlash (resolve fs p)) fs.root [] (some dp) wp key f true false hloc2
  have hname2 : (updateAt (updateAt fs.root wp (fun n => n.setFiles ((n.files).map (fun l => alPut l key { f with content := t, modeTime := now })))) dp (fun n => (n.addSize ((t.length : Int) - f.size)).setTime now)).name = "" := by
    simp [updateAt_name, hname]
  refine ⟨{ fs with root := updateAt (updateAt fs.root wp (fun n => n.setFiles ((n.files).map (fun l => alPut l key { f with content := t, modeTime := now })))) dp (fun n => (n.addSize ((t.length : Int) - f.size)).setTime now) }, ?_, ?_⟩
  · simp only [writeFileGo, hfp, Bool.not_true, Bool.false_eq_true, if_false,
      hloc]
  · have hres : resolve { fs with root := updateAt (updateAt fs.root wp (fun n => n.setFiles ((n.files).map (fun l => alPut l key { f with content := t, modeTime := now })))) dp (fun n => (n.addSize ((t.length : Int) - f.size)).setTime now) } p = resolve fs p := by
      simp [resolve, normName, currentFullPath, hcur, fullPathAt, hname, hname2]
    have hcn2 : curNode { fs with root := updateAt (updateAt fs.root wp (fun n => n.setFiles ((n.files).map (fun l => alPut l key { f with content := t, modeTime := now })))) dp (fun n => (n.addSize ((t.length : Int) - f.size)).setTime now) } = updateAt (updateAt fs.root wp (fun n => n.setFiles ((n.files).map (fun l => alPut l key { f with content := t, modeTime := now })))) dp (fun n => (n.addSize ((t.length : Int) - f.size)).setTime now) := by
      simp [curNode, hcur, nodeAt]
    have hpar : ({ f with content := t, modeTime := now } : MFile).parent
        = some dp := hd.symm
    have hfin : locate { fs with root := updateAt (updateAt fs.root wp (fun n => n.setFiles ((n.files).map (fun l => alPut l key { f with content := t, modeTime := now })))) dp (fun n => (n.addSize ((t.length : Int) - f.size)).setTime now) } (resolve fs p) false = (some dp, some (wp, key, { f with content := t, modeTime := now })) := by
      simp only [locate]
      rw [hcn2, hcur]
      rw [locAux_updateAt_invisible (splitSlash (resolve fs p))
        (updateAt fs.root wp (fun n => n.setFiles ((n.files).map (fun l => alPut l key { f with content := t, modeTime := now })))) [] dp
        (fun n => (n.addSize ((t.length : Int) - f.size)).setTime now)
        hu2pres false]
      rw [hw, hpar]
      simp
    simp only [readFileGo, hfp, Bool.not_true, Bool.false_eq_true, if_false]
    rw [hres, hfin]

/-! Parent/child-consistency lemmas for C8: local map operations preserve
the parentOkB invariant, and updateAt preserves it when the update does at
its target path. -/

theorem updateAt_parent (p : List String) (d : MDir) (u : MDir → MDir)
    (hpar : ∀ n, (u n).parent = n.parent) :
    (updateAt d p u).parent = d.parent := by
  cases p with
  | nil => simpa using hpar d
  | cons k ks => exact updateAt_cons_parent d k ks u

theorem alGet_mem {α : Type} :
    ∀ (l : List (String × α)) (k : String) (v : α),
      alGet l k = some v → (k, v) ∈ l := by
  intro l
  induction l with
  | nil => intro k v h; simp [alGet] at h
  | cons kc rest ih =>
    rcases kc with ⟨k2, w⟩
    intro k v h
    simp only [alGet] at h
    by_cases hk : k2 = k
    · rw [if_pos hk] at h
      injection h with h
      subst hk
      subst h
      exact List.mem_cons_self _ _
    · rw [if_neg hk] at h
      exact List.mem_cons_of_mem _ (ih k v h)

theorem alPut_all {α : Type} (P : String × α → Bool) :
    ∀ (l : List (String × α)) (k : String) (v : α),
      l.all P = true → P (k, v) = true → (alPut l k v).all P = true := by
  intro l
  induction l with
  | nil => intro k v _ hv; simpa [alPut] using hv
  | cons kc rest ih =>
    rcases kc with ⟨k2, w⟩
    intro k v h hv
    simp only [List.all_cons, Bool.and_eq_true] at h
    obtain ⟨h1, h2⟩ := h
    simp only [alPut]
    by_cases hk : k2 = k
    · rw [if_pos hk]
      simp only [List.all_cons, Bool.and_eq_true]
      exact ⟨by subst hk; exact hv, h2⟩
    · rw [if_neg hk]
      simp only [List.all_cons, Bool.and_eq_true]
      exact ⟨h1, ih k v h2 hv⟩

theorem alDel_all {α : Type} (P : String × α → Bool) :
    ∀ (l : List (String × α)) (k : String),
      l.all P = true → (alDel l k).all P = true := by
  intro l
  induction l with
  | nil => intro k _; rfl
  | cons kc rest ih =>
    rcases kc with ⟨k2, w⟩
    intro k h
    simp only [List.all_cons, Bool.and_eq_true] at h
    obtain ⟨h1, h2⟩ := h
    simp only [alDel]
    by_cases hk : k2 = k
    · rw [if_pos hk]; exact h2
    · rw [if_neg hk]
      simp only [List.all_cons, Bool.and_eq_true]
      exact ⟨h1, ih k h2⟩

theorem parentOkL_alDel (q : List String) :
    ∀ (l : List (String × MDir)) (k : String),
      parentOkL q l = true → parentOkL q (alDel l k) = true := by
  intro l
  induction l with
  | nil => intro k _; rfl
  | cons kc rest ih =>
    rcases kc with ⟨k2, c⟩
    intro k h
    simp only [parentOkL, Bool.and_eq_true] at h
    obtain ⟨h1, h2⟩ := h
    simp only [alDel]
    by_cases hk : k2 = k
    · rw [if_pos hk]; exact h2
    · rw [if_neg hk]
      simp only [parentOkL, Bool.and_eq_true]
      exact ⟨h1, ih k h2⟩

theorem parentOkL_mem (q : List String) :
    ∀ (l : List (String × MDir)) (k : String) (c : MDir),
      parentOkL q l = true → (k, c) ∈ l →
      c.parent = some q ∧ parentOkB (q ++ [k]) c = true := by
  intro l
  induction l with
  | nil => intro k c _ hm; cases hm
  | cons kc rest ih =>
    rcases kc with ⟨k2, c2⟩
    intro k c h hm
    simp only [parentOkL, Bool.and_eq_true, decide_eq_true_eq] at h
    obtain ⟨⟨h1, h2⟩, h3⟩ := h
    rcases List.mem_cons.mp hm with he | hm2
    · injection he with he1 he2
      subst he1
      subst he2
      exact ⟨h1, h2⟩
    · exact ih k c h3 hm2

theorem parentOkB_size_time (q : List String) (n : MDir) (x : Int) (tt : Nat) :
    parentOkB q ((n.addSize x).setTime tt) = parentOkB q n := by
  rcases n with ⟨a, b, c, d, e, g⟩; rfl

theorem parentOkL_map_upd (q : List String) (k : String) (g : MDir → MDir)
    (hgp : ∀ c, (g c).parent = c.parent)
    (hgok : ∀ c, parentOkB (q ++ [k]) c = true →
      parentOkB (q ++ [k]) (g c) = true) :
    ∀ l, parentOkL q l = true →
      parentOkL q (l.map (fun kc => if kc.1 = k then (kc.1, g kc.2) else kc))
        = true := by
  intro l
  induction l with
  | nil => intro _; rfl
  | cons kc rest ih =>
    rcases kc with ⟨k2, c⟩
    intro h
    simp only [parentOkL, Bool.and_eq_true, decide_eq_true_eq] at h
    obtain ⟨⟨h1, h2⟩, h3⟩ := h
    simp only [List.map_cons]
    by_cases hk : k2 = k
    · simp only [if_pos hk]
      simp only [parentOkL, Bool.and_eq_true, decide_eq_true_eq]
      refine ⟨⟨?_, ?_⟩, ih h3⟩
      · rw [hgp c]; exact h1
      · subst hk; exact hgok c h2
    · simp only [if_neg hk]
      simp only [parentOkL, Bool.and_eq_true, decide_eq_true_eq]
      exact ⟨⟨h1, h2⟩, ih h3⟩

/-- updateAt preserves the parent/child invariant when the update function
preserves parent fields and preserves the invariant at its target path. -/
theorem parentOkB_updateAt (rp : List String) :
    ∀ (q : List String) (r : MDir) (u : MDir → MDir),
      (∀ n, (u n).parent = n.parent) →
      (∀ n, parentOkB (q ++ rp) n = true → parentOkB (q ++ rp) (u n) = true) →
      parentOkB q r = true → parentOkB q (updateAt r rp u) = true := by
  induction rp with
  | nil =>
    intro q r u hpar hloc h
    rw [updateAt_nil]
    exact (by simpa using hloc r (by simpa using h))
  | cons k ks ih =>
    intro q r u hpar hloc h
    rcases r with ⟨n, par, ch, fi, sz, t⟩
    cases ch with
    | none => simpa [updateAt] using h
    | some l =>
      have hloc2 : ∀ n2, parentOkB ((q ++ [k]) ++ ks) n2 = true →
          parentOkB ((q ++ [k]) ++ ks) (u n2) = true := by
        intro n2; rw [List.append_assoc]; exact hloc n2
      simp only [updateAt, parentOkB, Bool.and_eq_true] at h ⊢
      obtain ⟨h1, h2⟩ := h
      refine ⟨?_, h2⟩
      exact parentOkL_map_upd q k (fun c => updateAt c ks u)
        (fun c => updateAt_parent ks c u hpar)
        (fun c hc => ih (q ++ [k]) c u hpar hloc2 hc) l h1

theorem parentOkB_destruct (q : List String) (n : String)
    (par : Option (List String)) (ch : Option (List (String × MDir)))
    (fi : Option (List (String × MFile))) (sz : Int) (t : Nat) :
    parentOkB q (.mk n par ch fi sz t)
      = ((match ch with
          | none => true
          | some l => parentOkL q l) &&
        (match fi with
          | none => true
          | some l => l.all (fun kf => decide (kf.2.parent = some q)))) := by
  rw [parentOkB.eq_def]

/-- If the walk starting at a consistent node hits a file, the returned
dir pointer is the file's parent field, and that field designates the
directory the walk found the file in. -/
theorem locAux_hit_consistent (parts : List String) :
    ∀ (node : MDir) (q : List String) (dof : Bool)
      (dret : Option (List String)) (w : List String) (k2 : String)
      (f : MFile),
      parentOkB q node = true →
      locAux node q parts dof = (dret, some (w, k2, f)) →
      dret = f.parent ∧ f.parent = some w := by
  induction parts with
  | nil =>
    intro node q dof dret w k2 f _ h
    exact absurd (congrArg Prod.snd h) (by simp [locAux])
  | cons part rest ih =>
    intro node q dof dret w k2 f hok h
    by_cases hp : part = ""
    · subst hp
      simp only [locAux, if_pos rfl] at h
      exact ih node q dof dret w k2 f hok h
    · simp only [locAux, if_neg hp] at h
      rcases node with ⟨n, par, ch, fi, sz, t⟩
      rw [parentOkB_destruct] at hok
      simp only [Bool.and_eq_true] at hok
      obtain ⟨hokc, hokf⟩ := hok
      rcases hc : goGet (MDir.mk n par ch fi sz t).children part with _ | c
      · simp only [hc] at h
        rcases hf : goGet (MDir.mk n par ch fi sz t).files part with _ | file
        · simp only [hf] at h
          split at h <;> exact absurd (congrArg Prod.snd h) (by simp)
        · simp only [hf] at h
          by_cases hr : rest = []
          · rw [if_pos hr] at h
            have h1 : file.parent = dret := congrArg Prod.fst h
            have h2 : some (q, part, file) = some (w, k2, f) :=
              congrArg Prod.snd h
            injection h2 with h2
            injection h2 with ha hb
            injection hb with hb1 hb2
            subst ha
            subst hb1
            subst hb2
            refine ⟨h1.symm, ?_⟩
            rcases fi with _ | lf
            · exact absurd hf (by simp [MDir.files, goGet])
            · have hm : (part, file) ∈ lf :=
                alGet_mem lf part file (by simpa [MDir.files, goGet] using hf)
              have hall : lf.all (fun kf => decide (kf.2.parent = some q))
                  = true := by simpa [MDir.files] using hokf
              exact of_decide_eq_true (List.all_eq_true.mp hall (part, file) hm)
          · rw [if_neg hr] at h
            exact absurd (congrArg Prod.snd h) (by simp)
      · simp only [hc] at h
        rcases ch with _ | lc
        · exact absurd hc (by simp [MDir.children, goGet])
        · have hm : (part, c) ∈ lc :=
            alGet_mem lc part c (by simpa [MDir.children, goGet] using hc)
          have hc2 := (parentOkL_mem q lc part c
            (by simpa [MDir.children] using hokc) hm).2
          exact ih c (q ++ [part]) dof dret w k2 f hc2 h

theorem fileDeleteGo_parentOk (fs : MemoryFS) (f : MFile) (now : Nat)
    (hok : parentOkB [] fs.root = true) :
    parentOkB [] (fileDeleteGo fs f now).root = true := by
  simp only [fileDeleteGo]
  split
  · exact hok
  · split
    · exact hok
    · split
      · split
        · refine parentOkB_updateAt _ [] fs.root _ ?_ ?_ hok
          · intro n2; rcases n2 with ⟨a, b, c, d2, e, g⟩; rfl
          · intro n2 h2
            rcases n2 with ⟨a, b, c, d2, e, g⟩
            simp only [MDir.files, MDir.setFiles, MDir.addSize, MDir.setTime]
            rw [parentOkB_destruct] at h2 ⊢
            simp only [Bool.and_eq_true] at h2 ⊢
            obtain ⟨hc2, hf2⟩ := h2
            refine ⟨hc2, ?_⟩
            cases d2 with
            | none => simp [goDel]
            | some lf =>
              simp only [goDel]
              exact alDel_all _ lf f.name hf2
        · exact hok
      · exact hok

theorem dirDeleteGo_parentOk (fs : MemoryFS) (p : List String) (now : Nat)
    (hok : parentOkB [] fs.root = true) :
    parentOkB [] (dirDeleteGo fs p now).root = true := by
  simp only [dirDeleteGo]
  split
  · exact hok
  · split
    · exact hok
    · split
      · exact hok
      · split
        · split
          · refine parentOkB_updateAt _ [] fs.root _ ?_ ?_ hok
            · intro n2; rcases n2 with ⟨a, b, c, d2, e, g⟩; rfl
            · intro n2 h2
              rcases n2 with ⟨a, b, c, d2, e, g⟩
              simp only [MDir.children, MDir.setChildren, MDir.addSize,
                MDir.setTime]
              rw [parentOkB_destruct] at h2 ⊢
              simp only [Bool.and_eq_true] at h2 ⊢
              obtain ⟨hc2, hf2⟩ := h2
              refine ⟨?_, hf2⟩
              cases c with
              | none => simp [goDel]
              | some lc =>
                simp only [goDel]
                exact parentOkL_alDel _ lc _ hc2
          · exact hok
        · exact hok

theorem deleteGo_parentOk (fs : MemoryFS) (path : String) (now : Nat)
    (hok : parentOkB [] fs.root = true) :
    parentOkB [] (deleteGo fs path now).2.root = true := by
  simp only [deleteGo]
  split
  · exact fileDeleteGo_parentOk fs _ now hok
  · split
    · split
      · rw [parentOkB_destruct]; rfl
    · exact dirDeleteGo_parentOk fs _ now hok
  · exact hok

theorem mkdirStep_parentOk (now : Nat) (st : DirRef × MemoryFS) (part : String)
    (hok : parentOkB [] st.2.root = true) :
    parentOkB [] (mkdirStep now st part).2.root = true := by
  rcases st with ⟨dr, fs⟩
  rcases dr with p | d
  case mk.detached => simp only [mkdirStep]; split <;> exact hok
  simp only [mkdirStep]
  split
  · exact hok
  · split
    · exact hok
    · split
      · exact hok
      · split
        · refine parentOkB_updateAt _ [] fs.root _ ?_ ?_ hok
          · intro n2; rcases n2 with ⟨a, b, c, d2, e, g⟩; rfl
          · intro n2 h2
            rcases n2 with ⟨a, b, c, d2, e, g⟩
            simp only [MDir.setChildren, MDir.setTime]
            rw [parentOkB_destruct] at h2 ⊢
            simp only [Bool.and_eq_true] at h2 ⊢
            obtain ⟨_, hf2⟩ := h2
            refine ⟨?_, hf2⟩
            simp only [parentOkL, Bool.and_eq_true, decide_eq_true_eq,
              List.nil_append]
            refine ⟨⟨rfl, ?_⟩, trivial⟩
            rw [parentOkB_destruct]
            rfl
        · exact hok

theorem writeFileGo_parentOk (fs : MemoryFS) (p t : String) (now : Nat)
    (hcur : fs.current = [])
    (hok : parentOkB [] fs.root = true)
    (r : Except GoErr Unit) (fs2 : MemoryFS)
    (h : writeFileGo fs p t now = some (r, fs2)) :
    parentOkB [] fs2.root = true := by
  by_cases hfp : isFilePath p = true
  · rcases hl : locate fs (resolve fs p) true with ⟨d1, of⟩
    rcases d1 with _ | dp
    · simp only [writeFileGo, hfp, Bool.not_true, Bool.false_eq_true,
        if_false, hl] at h
      injection h with h
      injection h with h1 h2
      subst h2
      exact hok
    · rcases of with _ | wkf
      · simp only [writeFileGo, hfp, Bool.not_true, Bool.false_eq_true,
          if_false, hl] at h
        split at h
        · injection h with h
          injection h with h1 h2
          subst h2
          exact hok
        · split at h
          · exact Option.noConfusion h
          · split at h
            · exact Option.noConfusion h
            · injection h with h
              injection h with h1 h2
              subst h2
              refine parentOkB_updateAt _ [] fs.root _ ?_ ?_ hok
              · intro n2; rcases n2 with ⟨a, b, c, d2, e, g⟩; rfl
              · intro n2 h2
                rcases n2 with ⟨a, b, c, d2, e, g⟩
                simp only [MDir.files, MDir.setFiles, MDir.addSize,
                  MDir.setTime]
                rw [parentOkB_destruct] at h2 ⊢
                simp only [Bool.and_eq_true] at h2 ⊢
                obtain ⟨hc2, hf2⟩ := h2
                refine ⟨hc2, ?_⟩
                cases d2 with
                | none => simp
                | some lf =>
                  simp only [Option.map_some']
                  refine alPut_all _ lf _ _ hf2 ?_
                  simp [MFile.size]
      · rcases wkf with ⟨wp, key, f⟩
        simp only [writeFileGo, hfp, Bool.not_true, Bool.false_eq_true,
          if_false, hl] at h
        injection h with h
        injection h with h1 h2
        subst h2
        have hcn : curNode fs = fs.root := by simp [curNode, hcur, nodeAt]
        have hl2 : locAux fs.root [] (splitSlash (resolve fs p)) true
            = (some dp, some (wp, key, f)) := by
          simpa [locate, hcn, hcur] using hl
        obtain ⟨hd, hpw⟩ := locAux_hit_consistent (splitSlash (resolve fs p))
          fs.root [] true (some dp) wp key f hok hl2
        refine parentOkB_updateAt _ [] _ _ ?_ ?_
          (parentOkB_updateAt _ [] fs.root _ ?_ ?_ hok)
        · intro n2; rcases n2 with ⟨a, b, c, d2, e, g⟩; rfl
        · intro n2 h2
          rw [parentOkB_size_time]
          exact h2
        · intro n2; rcases n2 with ⟨a, b, c, d2, e, g⟩; rfl
        · intro n2 h2
          rcases n2 with ⟨a, b, c, d2, e, g⟩
          simp only [MDir.files, MDir.setFiles]
          rw [parentOkB_destruct] at h2 ⊢
          simp only [Bool.and_eq_true] at h2 ⊢
          obtain ⟨hc2, hf2⟩ := h2
          refine ⟨hc2, ?_⟩
          cases d2 with
          | none => simp
          | some lf =>
            simp only [Option.map_some']
            refine alPut_all _ lf _ _ hf2 ?_
            simp only [decide_eq_true_eq, List.nil_append]
            exact hpw
  · have hfp2 : isFilePath p = false := by
      revert hfp; cases isFilePath p <;> simp
    simp only [writeFileGo, hfp2, Bool.not_false, if_true] at h
    injection h with h
    injection h with h1 h2
    subst h2
    exact hok

theorem mkdirFold_parentOk (now : Nat) (parts : List String) :
    ∀ st : DirRef × MemoryFS, parentOkB [] st.2.root = true →
      parentOkB [] (parts.foldl (mkdirStep now) st).2.root = true := by
  induction parts with
  | nil => intro st h; exact h
  | cons a as ih =>
    intro st h
    exact ih (mkdirStep now st a) (mkdirStep_parentOk now st a h)

theorem mkdirGo_parentOk (fs : MemoryFS) (p : String) (now : Nat)
    (hok : parentOkB [] fs.root = true) :
    parentOkB [] (mkdirGo fs p now).2.root = true := by
  simp only [mkdirGo, mkdirWalk]
  exact mkdirFold_parentOk now _ (.attached [], fs) hok

theorem strip_destruct (n : String) (par : Option (List String))
    (ch : Option (List (String × MDir)))
    (fi : Option (List (String × MFile))) (sz : Int) (t : Nat) :
    strip (.mk n par ch fi sz t)
      = .mk n
        (match ch with
         | none => none
         | some l => some (stripL l))
        (match fi with
         | none => none
         | some l =>
           some (l.map (fun kf => (kf.1, kf.2.name, kf.2.content)))) := by
  rw [strip.eq_def]

theorem stripL_map_upd (k : String) (g1 g2 : MDir → MDir)
    (hg : ∀ c, strip (g1 c) = strip (g2 c)) :
    ∀ l : List (String × MDir),
      stripL (l.map (fun kc => if kc.1 = k then (kc.1, g1 kc.2) else kc))
        = stripL (l.map (fun kc => if kc.1 = k then (kc.1, g2 kc.2) else kc)) := by
  intro l
  induction l with
  | nil => rfl
  | cons kc rest ih =>
    rcases kc with ⟨k2, c⟩
    simp only [List.map_cons]
    by_cases hk : k2 = k
    · rw [if_pos hk, if_pos hk]
      simp only [stripL, hg c, ih]
    · rw [if_neg hk, if_neg hk]
      simp only [stripL, ih]

/-- Content projection is unchanged by replacing an update function with a
content-wise equal one. -/
theorem strip_updateAt_cong (p : List String) :
    ∀ (d : MDir) (u1 u2 : MDir → MDir),
      (∀ n, strip (u1 n) = strip (u2 n)) →
      strip (updateAt d p u1) = strip (updateAt d p u2) := by
  induction p with
  | nil => intro d u1 u2 hg; simp only [updateAt_nil]; exact hg d
  | cons k ks ih =>
    intro d u1 u2 hg
    rcases d with ⟨n, par, ch, fi, sz, t⟩
    cases ch with
    | none => rfl
    | some l =>
      simp only [updateAt]
      simp only [strip_destruct]
      rw [stripL_map_upd k (fun c => updateAt c ks u1) (fun c => updateAt c ks u2)
        (fun c => ih c u1 u2 hg) l]

/-- The deletion of a file from its parent produces the same content for
any two time stamps. -/
theorem fileDeleteGo_strip_time (fs : MemoryFS) (f : MFile) (n1 n2 : Nat) :
    strip (fileDeleteGo fs f n1).root = strip (fileDeleteGo fs f n2).root := by
  simp only [fileDeleteGo]
  split
  · rfl
  · split
    · rfl
    · split
      · split
        · apply strip_updateAt_cong
          intro n
          rcases n with ⟨a, b, c, d2, e, g⟩
          simp only [MDir.setFiles, MDir.addSize, MDir.setTime]
          rw [strip_destruct, strip_destruct]
        · rfl
      · rfl

/-- For a file source, the copy with remove-source set is the copy without
it followed by the deletion of the source file through its pointer. -/
theorem copyGo_move_file (fs : MemoryFS) (a b : String) (now1 : Nat)
    (sdir swp : List String) (skey : String) (sf : MFile) (fs3 : MemoryFS)
    (hsrc : locate fs (resolve fs a) false = (some sdir, some (swp, skey, sf)))
    (hcpy : copyGo fs a b false now1 = some (.ok (), fs3)) :
    copyGo fs a b true now1 = some (.ok (), fileDeleteGo fs3 sf now1) := by
  simp only [copyGo, hsrc] at hcpy ⊢
  by_cases hsa : strHasSuf a "/" = true
  · rw [if_pos hsa] at hcpy
    injection hcpy with hcpy
    injection hcpy with h1 h2
    exact Except.noConfusion h1
  · rw [if_neg hsa] at hcpy ⊢
    rcases hd : locate fs (resolve fs b) false with ⟨dl1, dl2⟩
    rw [hd] at hcpy
    obtain ⟨dref, fs1, hdr⟩ : ∃ dref fs1,
        destRef fs (resolve fs b) now1 (dl1, dl2).1 = (dref, fs1) :=
      ⟨_, _, rfl⟩
    simp only [hdr] at hcpy ⊢
    by_cases hdd : (dl2.isSome && strHasSuf b "/") = true
    · rw [if_pos hdd] at hcpy
      injection hcpy with hcpy
      injection hcpy with h1 h2
      exact Except.noConfusion h1
    · rw [if_neg hdd] at hcpy ⊢
      cases dl2 with
      | none =>
        cases dref with
        | detached d => exact Option.noConfusion hcpy
        | attached q =>
          cases hna : nodeAt fs1.root q with
          | none =>
            simp only [hna] at hcpy
            exact Option.noConfusion hcpy
          | some dnode =>
            cases hnf : dnode.files with
            | none =>
              simp only [hna, hnf] at hcpy
              exact Option.noConfusion hcpy
            | some lf =>
              simp only [hna, hnf] at hcpy ⊢
              injection hcpy with hcpy
              injection hcpy with h1 h2
              rw [← h2, if_pos trivial]
      | some wkf =>
        rcases wkf with ⟨dwp, dkey, dfile⟩
        injection hcpy with hcpy
        injection hcpy with h1 h2
        rw [← h2]
        rfl

/-- C6 (amended): when the source path locates a file, Copy(a,b) followed
by Delete(a) is content-wise equal to Move(a,b), provided the copy
succeeds and the source path still locates the same file value in the
copied state (the copy did not disturb the source).  For a root-directory
source the equivalence fails; see the counterexample. -/
theorem C6_copy_delete_eq_move (fs : MemoryFS) (a b : String)
    (now1 now2 : Nat) (rm : Bool)
    (sdir swp : List String) (skey : String) (sf : MFile) (fs3 : MemoryFS)
    (sd3 w3 : List String) (k3 : String)
    (hsrc : locate fs (resolve fs a) false = (some sdir, some (swp, skey, sf)))
    (hcpy : copyGo fs a b false now1 = some (.ok (), fs3))
    (hsrc3 : locate fs3 (resolve fs3 a) false
      = (some sd3, some (w3, k3, sf))) :
    ∃ fsm, MoveGo fs a b rm now1 = some (.ok (), fsm) ∧
      strip (deleteGo fs3 a now2).2.root = strip fsm.root := by
  refine ⟨fileDeleteGo fs3 sf now1, ?_, ?_⟩
  · simpa [MoveGo] using
      copyGo_move_file fs a b now1 sdir swp skey sf fs3 hsrc hcpy
  · simp only [deleteGo, hsrc3]
    exact fileDeleteGo_strip_time fs3 sf now2 now1

/-- C6 witness: copying the file /x/s/f onto /y/s in exD and then
deleting /x/s/f leaves the same content as moving it. -/
theorem C6_witness :
    locate exD (resolve exD "/x/s/f") false
      = (some ["x", "s"],
          some (["x", "s"], "f", ⟨"f", "hi", 0, some ["x", "s"]⟩)) ∧
    copyGo exD "/x/s/f" "/y/s" false 10 = some (.ok (), exD6) ∧
    locate exD6 (resolve exD6 "/x/s/f") false
      = (some ["x", "s"],
          some (["x", "s"], "f", ⟨"f", "hi", 0, some ["x", "s"]⟩)) ∧
    (∃ fsm, MoveGo exD "/x/s/f" "/y/s" false 10 = some (.ok (), fsm) ∧
      strip (deleteGo exD6 "/x/s/f" 11).2.root = strip fsm.root) :=
  ⟨rfl, rfl, rfl,
    C6_copy_delete_eq_move exD "/x/s/f" "/y/s" 10 11 false ["x", "s"]
      ["x", "s"] "f" ⟨"f", "hi", 0, some ["x", "s"]⟩ exD6 ["x", "s"]
      ["x", "s"] "f" rfl rfl rfl⟩

/-- C8 (amended): parent/child consistency is preserved by WriteFile,
Mkdir and Delete, but a directory Copy violates it: the copied subtree's
entries keep parent back-references into the source subtree. -/
theorem C8_consistency (fs : MemoryFS) (p t : String) (now : Nat)
    (hcur : fs.current = [])
    (hok : parentOkB [] fs.root = true) :
    (∀ r fs2, writeFileGo fs p t now = some (r, fs2) →
        parentOkB [] fs2.root = true) ∧
    parentOkB [] (mkdirGo fs p now).2.root = true ∧
    parentOkB [] (deleteGo fs p now).2.root = true ∧
    (copyGo exD "/x/s" "/y/s" false 10).map
      (fun r => parentOkB [] r.2.root) = some false :=
  ⟨fun r fs2 h => writeFileGo_parentOk fs p t now hcur hok r fs2 h,
   mkdirGo_parentOk fs p now hok,
   deleteGo_parentOk fs p now hok,
   rfl⟩

/-- C8 witness: on exC (a consistent tree) with path /d/g, WriteFile,
Mkdir and Delete all preserve consistency, while the exD directory copy
breaks it. -/
theorem C8_witness :
    exC.current = [] ∧
    parentOkB [] exC.root = true ∧
    ((∀ r fs2, writeFileGo exC "/d/g" "zz" 9 = some (r, fs2) →
        parentOkB [] fs2.root = true) ∧
      parentOkB [] (mkdirGo exC "/d/g" 9).2.root = true ∧
      parentOkB [] (deleteGo exC "/d/g" 9).2.root = true ∧
      (copyGo exD "/x/s" "/y/s" false 10).map
        (fun r => parentOkB [] r.2.root) = some false) :=
  ⟨rfl, rfl, C8_consistency exC "/d/g" "zz" 9 rfl rfl⟩

/-- C1 witness: on exC, overwriting /d/g (content old) with new! succeeds
and reading /d/g back returns new!. -/
theorem C1_witness :
    isFilePath "/d/g" = true ∧
    exC.current = [] ∧
    exC.root.name = "" ∧
    locate exC (resolve exC "/d/g") true
      = (some ["d"], some (["d"], "g", ⟨"g", "old", 0, some ["d"]⟩)) ∧
    (∃ fs2, writeFileGo exC "/d/g" "new!" 7 = some (.ok (), fs2) ∧
      readFileGo fs2 "/d/g" "utf-8" = .ok "new!") :=
  ⟨rfl, rfl, rfl, rfl,
    C1_write_overwrite_roundtrip exC "/d/g" "new!" 7 ["d"] ["d"] "g"
      ⟨"g", "old", 0, some ["d"]⟩ rfl rfl rfl rfl⟩

end V8tsgo
